import Mathlib

set_option maxHeartbeats 1000000

/-!
Shallow embedding of the package build orchestrator of this repository
(`scripts/build-packages.py` and `scripts/build-packages-local.py`).

Conventions of the embedding:
* Python strings are `String`; character-level work is done on `List Char`
  so that every definition reduces in the kernel.
* Python sets of strings are modelled as duplicate-free `List String`
  (only membership, cardinality and sorted views of them are ever observed).
* Python dicts mapping package names to dependency sets are association
  lists `List (String × List String)` with unique keys.
* `subprocess` builds are external: their success per (package, platform)
  is an oracle `Env.buildOk`, and the orchestrator model additionally
  records every `build_package` invocation and every container start so
  that scheduling claims can be stated.
-/

namespace PkgWorkflows

/-- Characters matched by Python's regex class backslash-s (ASCII range). -/
def pySpace (c : Char) : Bool :=
  c == ' ' || c == '\t' || c == '\n' || c == '\r' || c == Char.ofNat 11 || c == Char.ofNat 12

/-- Python `str.strip()`: drop leading and trailing whitespace. -/
def pyStrip (cs : List Char) : List Char :=
  ((cs.dropWhile pySpace).reverse.dropWhile pySpace).reverse

/-- Try to match the regex `\s*\([^)]*\)` at the start of `cs`; on success
return the remainder after the match (leftmost-match step of `re.sub` in
`parse_control_file`). -/
def matchParen (cs : List Char) : Option (List Char) :=
  match cs.dropWhile pySpace with
  | '(' :: t =>
    match t.dropWhile (fun c => !(c == ')')) with
    | ')' :: r => some r
    | _ => none
  | _ => none

/-- Fueled scan of `re.sub(r'\s*\([^)]*\)', '', dep)`: replace every
leftmost non-overlapping match by the empty string. -/
def subParensAux : Nat → List Char → List Char
  | 0, cs => cs
  | _ + 1, [] => []
  | fuel + 1, c :: cs =>
    match matchParen (c :: cs) with
    | some rest => subParensAux fuel rest
    | none => c :: subParensAux fuel cs

/-- Remove every occurrence of `\s*\([^)]*\)` (version constraints). -/
def subParens (cs : List Char) : List Char :=
  subParensAux cs.length cs

/-- The curated `system_packages` set of `parse_control_file`, verbatim. -/
def system_packages : List String :=
  ["gcc", "make", "cmake", "meson", "ninja-build", "python3-pip",
   "perl", "pkg-config", "pkgconf", "debhelper-compat",
   "zlib1g-dev", "libdbus-1-dev", "libssl-dev", "openssl-dev",
   "libcurl4-openssl-dev", "curl4-openssl-dev",
   "uuid-dev", "libcjson-dev", "libmsgpack-dev", "libmsgpackc2",
   "libjansson-dev", "liblog4c-dev", "liblog4c3",
   "libxml2-dev", "libspdlog-dev", "libprotobuf-dev",
   "protobuf-compiler", "grpc++", "libgrpc++-dev",
   "libjson-c-dev", "build-essential", "autoconf", "automake",
   "libtool", "cargo", "rustc"]

/-- Handling of one comma-separated `Build-Depends` entry in
`parse_control_file`: strip, drop version constraints, drop empty entries
and curated system packages, and map a trailing `-dev` suffix away.
Returns `none` when the entry is dropped. -/
def processDep (raw : String) : Option String :=
  let dep1 : String := String.mk (pyStrip raw.toList)
  let dep : String := String.mk (subParens dep1.toList)
  if dep ≠ "" ∧ dep ∉ system_packages then
    some (if List.isSuffixOf "-dev".toList dep.toList then
            String.mk (dep.toList.take (dep.toList.length - 4))
          else dep)
  else none

/-- Python `str.split(',')` (keeps empty fields, no separator collapsing). -/
def splitCommaAux : List Char → List Char → List (List Char)
  | [], acc => [acc.reverse]
  | c :: cs, acc =>
    if c == ',' then acc.reverse :: splitCommaAux cs [] else splitCommaAux cs (c :: acc)

/-- Split a string on commas, Python semantics. -/
def splitComma (s : String) : List String :=
  (splitCommaAux s.toList []).map String.mk

/-- Parse the value of a `Build-Depends:` line into the dependency set
(a duplicate-free list standing for the Python `set`). -/
def parse_build_depends (bd : String) : List String :=
  ((splitComma (String.mk (pyStrip bd.toList))).filterMap processDep).dedup

/-- One control manifest, with regex field extraction already applied:
`source` is the value matched by `^Source:\s*(\S+)` (none if the field is
absent) and `buildDepends` the raw value of `^Build-Depends:\s*(.*)$`. -/
structure ControlFile where
  source : Option String
  buildDepends : Option String

/-- The `parse_control_file` result: package name (if any) and its
dependency set. -/
def parse_control_file (c : ControlFile) : Option String × List String :=
  match c.source with
  | none => (none, [])
  | some name =>
    match c.buildDepends with
    | none => (some name, [])
    | some bd => (some name, parse_build_depends bd)

/-- A dependency graph: association list from package name to dependency
set, unique keys (a Python dict). -/
abbrev Graph := List (String × List String)

/-- The node set of the graph: its keys (`graph.keys()`). -/
def nodesOf (g : Graph) : List String := g.map Prod.fst

/-- Python dict assignment `graph[name] = deps`: overwrite in place if the
key exists, append otherwise. -/
def updateAssoc (g : Graph) (name : String) (deps : List String) : Graph :=
  if (nodesOf g).contains name then
    g.map (fun e => if e.1 == name then (name, deps) else e)
  else g ++ [(name, deps)]

/-- The `build_dependency_graph` loop: parse every control file and record
`graph[package_name] = deps` for those with a `Source:` field. (The
workflow map it also returns is irrelevant to every claim and omitted.) -/
def build_dependency_graph (cs : List ControlFile) : Graph :=
  cs.foldl
    (fun g c =>
      match parse_control_file c with
      | (some name, deps) => updateAssoc g name deps
      | (none, _) => g)
    []

/-- Dict lookup `graph[p]` (with `[]` standing for a missing key; the code
only looks up keys that are present). -/
def lookupDeps (g : Graph) (p : String) : List String :=
  match g.find? (fun e => e.1 == p) with
  | some e => e.2
  | none => []

/-- The in-place filtering at the start of `topological_sort`:
`graph[package] = {dep for dep in graph[package] if dep in all_nodes}`.
All later reads of `graph[p]` in the script see this filtered set. -/
def filteredDeps (g : Graph) (p : String) : List String :=
  (lookupDeps g p).filter (fun d => (nodesOf g).contains d)

/-- The reverse graph `reverse_graph[node]`: the set of packages that list
`node` among their (filtered) dependencies. -/
def dependents (g : Graph) (node : String) : List String :=
  (nodesOf g).filter (fun q => (filteredDeps g q).contains node)

/-- Lexicographic comparison of character lists by code point, the order
Python's `sorted` uses on strings. -/
def lexLe : List Char → List Char → Bool
  | [], _ => true
  | _ :: _, [] => false
  | a :: as, b :: bs =>
    if a.toNat < b.toNat then true
    else if b.toNat < a.toNat then false
    else lexLe as bs

/-- String order used for all tie-breaking. -/
def strLe (a b : String) : Prop := lexLe a.toList b.toList = true

instance : DecidableRel strLe := fun _ _ => inferInstanceAs (Decidable (_ = true))

/-- `sorted(...)` on a list of strings. -/
def strSort (l : List String) : List String := List.insertionSort strLe l

/-- Body of `for dependent in reverse_graph.get(node, set())`: decrement
`in_degree_reverse[dependent]` and enqueue it when the count reaches 0.
The state is the pair (in-degree map, queue). -/
def kahnFoldStep (s : (String → Int) × List String) (d : String) : (String → Int) × List String :=
  let indeg2 : String → Int := fun x => if x = d then s.1 x - 1 else s.1 x
  if indeg2 d = 0 then (indeg2, s.2 ++ [d]) else (indeg2, s.2)

/-- The `while queue:` loop of `topological_sort`: sort the queue, pop the
first (smallest) element, append it to the result, and process its
dependents. Fuel only bounds the iteration count; `g.length` iterations
always suffice (each iteration emits one node). -/
def kahnLoop (g : Graph) : Nat → (String → Int) → List String → List String → List String
  | 0, _, _, result => result
  | fuel + 1, indeg, queue, result =>
    match strSort queue with
    | [] => result
    | node :: rest =>
      let s := (dependents g node).foldl kahnFoldStep (indeg, rest)
      kahnLoop g fuel s.1 s.2 (result ++ [node])

/-- Initial `in_degree_reverse`: `len(graph[node])` after filtering. -/
def initIndeg (g : Graph) : String → Int :=
  fun n => ((filteredDeps g n).length : Int)

/-- Initial queue: all nodes with in-degree 0. -/
def initQueue (g : Graph) : List String :=
  (nodesOf g).filter (fun n => (filteredDeps g n).length == 0)

/-- The result list computed by the Kahn loop in `topological_sort`. -/
def topoResult (g : Graph) : List String :=
  kahnLoop g g.length (initIndeg g) (initQueue g) []

/-- The cycle diagnostic printed by `topological_sort` before `sys.exit(1)`:
every remaining package (in sorted order) paired with the sorted rendering
of `graph.get(pkg, set())`, its full filtered dependency set. -/
def cycleReport (g : Graph) (result : List String) : List (String × List String) :=
  (strSort ((nodesOf g).filter (fun n => !result.contains n))).map
    (fun p => (p, strSort (filteredDeps g p)))

/-- `topological_sort`: the build order on success, or (modelling
`sys.exit(1)`) the cycle diagnostic on failure. -/
def topological_sort (g : Graph) : Except (List (String × List String)) (List String) :=
  let result := topoResult g
  if result.length = (nodesOf g).dedup.length then Except.ok result
  else Except.error (cycleReport g result)

/-- The ready set of Kahn's algorithm after the packages in `done` have
been emitted: nodes not yet emitted all of whose dependencies are emitted. -/
def ready (g : Graph) (done : List String) : List String :=
  (nodesOf g).filter (fun n => !done.contains n && (filteredDeps g n).all (fun d => done.contains d))

/-- Specification-side formulation of the loop: repeatedly emit the
lexicographically smallest member of the current ready set. Proved
equivalent to `kahnLoop` below. -/
def greedy (g : Graph) : Nat → List String → List String
  | 0, done => done
  | fuel + 1, done =>
    match strSort (ready g done) with
    | [] => done
    | m :: _ => greedy g fuel (done ++ [m])

/-- Edge relation of the graph as the scheduler sees it: `hasEdge g p d`
when package `p` depends on `d` (after filtering to known nodes). -/
def hasEdge (g : Graph) (p d : String) : Prop := d ∈ filteredDeps g p

/-- Acyclicity: no package reaches itself through one or more dependency
edges. -/
def Acyclic (g : Graph) : Prop := ∀ n, ¬ Relation.TransGen (hasEdge g) n n

/-- Well-formedness a Python dict of sets has by construction: unique keys
and duplicate-free dependency lists. -/
def WFGraph (g : Graph) : Prop :=
  (g.map Prod.fst).Nodup ∧ ∀ e ∈ g, (e : String × List String).2.Nodup

/-- Number of not-yet-emitted dependencies of `n`; the loop invariant value
of `in_degree_reverse[n]`. -/
def remCount (g : Graph) (result : List String) (n : String) : Nat :=
  ((filteredDeps g n).filter (fun d => !result.contains d)).length

/-- Invariant tying the concrete Kahn state to the emitted list `result`. -/
def KahnInv (g : Graph) (indeg : String → Int) (queue result : List String) : Prop :=
  result.Nodup ∧
  (∀ r ∈ result, r ∈ nodesOf g) ∧
  (∀ r ∈ result, ∀ d ∈ filteredDeps g r, d ∈ result) ∧
  queue.Nodup ∧
  (∀ q, q ∈ queue ↔ (q ∈ nodesOf g ∧ q ∉ result ∧ ∀ d ∈ filteredDeps g q, d ∈ result)) ∧
  (∀ n ∈ nodesOf g, indeg n = (remCount g result n : Int))

/-- Lowercase one ASCII character (Python `str.lower()` on the inputs that
occur: machine names). -/
def asciiLower (c : Char) : Char :=
  if 'A' ≤ c ∧ c ≤ 'Z' then Char.ofNat (c.toNat + 32) else c

/-- Python `str.lower()`. -/
def pyLower (s : String) : String := String.mk (s.toList.map asciiLower)

/-- `get_native_docker_platform()`: map `platform.machine().lower()` to a
Docker platform, defaulting to `linux/amd64` for unknown machines. -/
def get_native_docker_platform (machine : String) : String :=
  let m := pyLower machine
  if m = "aarch64" ∨ m = "arm64" then "linux/arm64"
  else if m = "x86_64" ∨ m = "amd64" then "linux/amd64"
  else "linux/amd64"

/-- The environment the orchestrator runs against: everything external to
the scheduling logic (host machine, filesystem contents, marker files,
and the opaque external build procedure as a success oracle). -/
structure Env where
  machine : String
  buildOk : String → String → Bool
  startOk : String → Bool
  files : List String
  controlPkgs : String → Option (List String)
  rustMarker : String → Bool

/-- `is_native_platform(docker_platform)`. -/
def is_native_platform (env : Env) (dockerPlatform : String) : Bool :=
  get_native_docker_platform env.machine == dockerPlatform

/-- `get_binary_package_names`: the `Package:` fields of the control file,
falling back to the source package name when the file or the fields are
absent. -/
def get_binary_package_names (env : Env) (p : String) : List String :=
  match env.controlPkgs p with
  | none => [p]
  | some l => if l = [] then [p] else l

/-- Decision of `repo_root.glob(f"{binaryPkg}_*_{platform}.deb")` for one
candidate file name: the name is `binaryPkg ++ "_"`, then an arbitrary
(possibly empty) middle matched by `*`, then `"_" ++ platform ++ ".deb"`. -/
def debMatch (binaryPkg platform file : String) : Bool :=
  let pre := (binaryPkg ++ "_").toList
  let suf := ("_" ++ platform ++ ".deb").toList
  pre.isPrefixOf file.toList && suf.isSuffixOf (file.toList.drop pre.length)

/-- Semantic reading of the glob pattern `{binaryPkg}_*_{platform}.deb`. -/
def DebMatches (binaryPkg platform file : String) : Prop :=
  ∃ mid : List Char,
    file.toList = (binaryPkg ++ "_").toList ++ mid ++ ("_" ++ platform ++ ".deb").toList

/-- The `existing_debs` accumulation: for every binary package name, all
files of the output directory matching its pattern. -/
def existing_debs (env : Env) (binaryPackages : List String) (platform : String) : List String :=
  binaryPackages.flatMap (fun b => env.files.filter (fun f => debMatch b platform f))

/-- Observable state of one orchestrator run. `succeeded`, `failed` and
`skipped` are the script's lists; `built` records every `build_package`
invocation (package, platform) and `started` every successful container
start (its Docker platform), so that claims about what was or was not
executed can be stated. -/
structure RunState where
  succeeded : List String
  failed : List String
  skipped : List String
  rustPackages : List String
  built : List (String × String)
  started : List String
deriving DecidableEq

/-- Empty run state. -/
def initRunState : RunState :=
  { succeeded := [], failed := [], skipped := [], rustPackages := [], built := [], started := [] }

/-- One iteration of the primary `for idx, package_name in enumerate(build_order)`
loop of the containerized driver. The Bool is the abort flag: once a build
has failed (`break`), every later package is untouched. -/
def primaryStep (env : Env) (platform dockerPlatform : String) (skipExisting : Bool)
    (s : RunState × Bool) (p : String) : RunState × Bool :=
  if s.2 then s
  else
    let st := s.1
    if env.rustMarker p && !is_native_platform env dockerPlatform then
      ({ st with rustPackages := st.rustPackages ++ [p], skipped := st.skipped ++ [p] }, false)
    else if skipExisting && !(existing_debs env (get_binary_package_names env p) platform).isEmpty then
      ({ st with skipped := st.skipped ++ [p] }, false)
    else if env.buildOk p platform then
      ({ st with succeeded := st.succeeded ++ [p], built := st.built ++ [(p, platform)] }, false)
    else
      ({ st with failed := st.failed ++ [p], built := st.built ++ [(p, platform)] }, true)

/-- Cross-compilation target platforms of the secondary pass. -/
def crossTargets (platform : String) : List (String × String) :=
  if platform = "arm64" then [("amd64", "linux/amd64")]
  else if platform = "amd64" then [("arm64", "linux/arm64")]
  else []

/-- One package of the secondary (cross-compile) pass: existence filter
keyed on the cross platform, then an unconditional build attempt — note
there is no abort flag here, a failure does not stop this pass. -/
def secondaryPackageStep (env : Env) (crossPlatform : String) (skipExisting : Bool)
    (st : RunState) (p : String) : RunState :=
  if skipExisting && !(existing_debs env (get_binary_package_names env p) crossPlatform).isEmpty then st
  else if env.buildOk p crossPlatform then
    { st with succeeded := st.succeeded ++ [p ++ " (" ++ crossPlatform ++ ")"],
              built := st.built ++ [(p, crossPlatform)] }
  else
    { st with failed := st.failed ++ [p ++ " (" ++ crossPlatform ++ ")"],
              built := st.built ++ [(p, crossPlatform)] }

/-- One cross target of the secondary pass: start a container bound to the
(native) requested Docker platform; on failure `continue`, otherwise build
every Rust package for the cross platform. -/
def secondaryTargetStep (env : Env) (dockerPlatform : String) (skipExisting : Bool)
    (rustInOrder : List String) (st : RunState) (t : String × String) : RunState :=
  if env.startOk dockerPlatform then
    rustInOrder.foldl (secondaryPackageStep env t.1 skipExisting)
      { st with started := st.started ++ [dockerPlatform] }
  else st

/-- The secondary pass: runs exactly when the requested Docker platform is
the host-native one, over the Rust-marked packages of the build order. It
is entered regardless of primary-pass failures. -/
def secondaryPass (env : Env) (platform dockerPlatform : String) (skipExisting : Bool)
    (buildOrder : List String) (st : RunState) : RunState :=
  if is_native_platform env dockerPlatform then
    let rustInOrder := buildOrder.filter env.rustMarker
    if rustInOrder ≠ [] then
      (crossTargets platform).foldl
        (secondaryTargetStep env dockerPlatform skipExisting rustInOrder) st
    else st
  else st

/-- The build phase of the containerized driver `main`: start the primary
container (exit 1 if that fails), run the primary pass (fail-fast), then
the secondary pass, and compute the exit code from `failed`. -/
def runBuilds (env : Env) (platform dockerPlatform : String) (skipExisting : Bool)
    (plan : List String) : RunState × Nat :=
  if env.startOk dockerPlatform then
    let st0 := { initRunState with started := [dockerPlatform] }
    let st1 := (plan.foldl (primaryStep env platform dockerPlatform skipExisting) (st0, false)).1
    let st2 := secondaryPass env platform dockerPlatform skipExisting plan st1
    (st2, if st2.failed ≠ [] then 1 else 0)
  else (initRunState, 1)

/-- `main` of the containerized driver from the point the graph exists:
topological sort (exit 1 on a cycle, before anything is built), the
`--package` filter (exit 1 on an unknown name, before any container or
build), `--dry-run` (exit 0, nothing built), then the build phase. -/
def mainModel (env : Env) (platform : String) (skipExisting : Bool)
    (singlePackage : Option String) (dryRun : Bool) (g : Graph) : RunState × Nat :=
  let dockerPlatform := "linux/" ++ platform
  match topological_sort g with
  | Except.error _ => (initRunState, 1)
  | Except.ok buildOrder =>
    match singlePackage with
    | some sp =>
      if buildOrder.contains sp then
        if dryRun then (initRunState, 0)
        else runBuilds env platform dockerPlatform skipExisting [sp]
      else (initRunState, 1)
    | none =>
      if dryRun then (initRunState, 0)
      else runBuilds env platform dockerPlatform skipExisting buildOrder

/-- One iteration of the build loop of the local driver
(`build-packages-local.py`): no Rust deferral, no container, same
existence filter and fail-fast abort. -/
def localStep (env : Env) (platform : String) (skipExisting : Bool)
    (s : RunState × Bool) (p : String) : RunState × Bool :=
  if s.2 then s
  else
    let st := s.1
    if skipExisting && !(existing_debs env (get_binary_package_names env p) platform).isEmpty then
      ({ st with skipped := st.skipped ++ [p] }, false)
    else if env.buildOk p platform then
      ({ st with succeeded := st.succeeded ++ [p], built := st.built ++ [(p, platform)] }, false)
    else
      ({ st with failed := st.failed ++ [p], built := st.built ++ [(p, platform)] }, true)

/-- The whole build loop of the local driver. -/
def localRun (env : Env) (platform : String) (skipExisting : Bool)
    (plan : List String) : RunState :=
  (plan.foldl (localStep env platform skipExisting) (initRunState, false)).1

/-- `timeout` on Linux, `gtimeout` on macOS (`sys.platform == "darwin"`). -/
def timeout_command (darwin : Bool) : String :=
  if darwin then "gtimeout" else "timeout"

/-- The bash script the containerized `build_package` runs in the container. -/
def bash_script_docker (p platform : String) (forceSource : Bool) : String :=
  "set -euo pipefail && cd /workspace && source scripts/build-helpers/build-common.sh && install_build_dependencies "
    ++ p ++ " " ++ platform ++ " && build_package " ++ p ++ " " ++ platform ++ " '' "
    ++ (if forceSource then "--force-source" else "")

/-- The bash script the local `build_package` runs. -/
def bash_script_local (p platform : String) (forceSource : Bool) : String :=
  "set -euo pipefail && source scripts/build-helpers/build-common.sh && install_build_dependencies "
    ++ p ++ " && build_package " ++ p ++ " " ++ platform ++ " '' "
    ++ (if forceSource then "--force-source" else "")

/-- The command list the containerized `build_package` executes: the
timeout supervisor wrapping `docker exec`. -/
def build_cmd_docker (darwin : Bool) (timeoutSeconds : Nat) (containerId p platform : String)
    (forceSource : Bool) : List String :=
  [timeout_command darwin, toString timeoutSeconds, "docker", "exec", containerId,
   "bash", "-c", bash_script_docker p platform forceSource]

/-- The command list the local `build_package` executes. The timeout prefix
`timeout_cmd, str(timeout_seconds)` is commented out in the source, so the
command is bare `bash -c`. -/
def build_cmd_local (p platform : String) (forceSource : Bool) : List String :=
  ["bash", "-c", bash_script_local p platform forceSource]

/-- Outcome classification of `build_package`. -/
inductive BuildOutcome where
  | succeeded
  | timedOut
  | nonZeroExit (code : Int)
  | launchErr
deriving DecidableEq

/-- Classification of a finished process by return code, as in both
drivers: 0 success, 124/143 timeout, anything else a non-zero-exit
failure. (`launchErr` corresponds to the exception path.) -/
def classify_returncode (rc : Int) : BuildOutcome :=
  if rc = 0 then BuildOutcome.succeeded
  else if rc = 124 ∨ rc = 143 then BuildOutcome.timedOut
  else BuildOutcome.nonZeroExit rc

/-! Concrete instances used by witnesses and counterexamples. -/

/-- The spec example: `a` depends on `b`, `b` on `c`, `c` on nothing. -/
def exA : Graph := [("a", ["b"]), ("b", ["c"]), ("c", [])]

/-- The spec example cycle: `x` and `y` depend on each other. -/
def exXY : Graph := [("x", ["y"]), ("y", ["x"])]

/-- The same dict as `exA` in another iteration order. -/
def exA2 : Graph := [("b", ["c"]), ("a", ["b"]), ("c", [])]

/-- Two independent packages, simultaneously ready. -/
def exTie : Graph := [("p", []), ("q", [])]

/-- Cycle `a ↔ b` plus `c` depending on `a` and on the orderable `d`:
after `d` is emitted the loop stalls, and the diagnostic for `c` shows
`["a", "d"]` although only `a` is still unsatisfied. -/
def exCyc : Graph := [("a", ["b"]), ("b", ["a"]), ("c", ["a", "d"]), ("d", [])]

/-- Environment for the C3 counterexample: source package `p` produces the
two artifacts `p1` and `p2`; only `p1` has an existing `.deb`. -/
def envC3 : Env :=
  { machine := "x86_64"
    buildOk := fun _ _ => true
    startOk := fun _ => true
    files := ["p1_1.0_arm64.deb"]
    controlPkgs := fun p => if p = "p" then some ["p1", "p2"] else none
    rustMarker := fun _ => false }

/-- Environment for the C4 counterexample: host is amd64 (so the requested
arm64 target is non-native), `r` is Rust-cross-compile-marked, every build
would succeed, no pre-existing artifacts. -/
def envC4 : Env :=
  { machine := "x86_64"
    buildOk := fun _ _ => true
    startOk := fun _ => true
    files := []
    controlPkgs := fun _ => none
    rustMarker := fun p => p = "r" }

/-- Environment for the C5 counterexample: host is amd64 and amd64 is the
requested target (native run), package `f` fails to build, Rust-marked `r`
builds fine, no pre-existing artifacts. -/
def envC5 : Env :=
  { machine := "x86_64"
    buildOk := fun p _ => !(p = "f")
    startOk := fun _ => true
    files := []
    controlPkgs := fun _ => none
    rustMarker := fun p => p = "r" }

/-- A dependency-respecting output: duplicate-free, within the nodes, and
emitting every (filtered) dependency strictly before its dependent. -/
def OrderedOut (g : Graph) (l : List String) : Prop :=
  l.Nodup ∧ (∀ p ∈ l, p ∈ nodesOf g) ∧
  (∀ p ∈ l, ∀ d ∈ filteredDeps g p, d ∈ l ∧ List.indexOf d l < List.indexOf p l)

/-! Order facts about the tie-breaking comparison. -/

theorem lexLe_refl (as : List Char) : lexLe as as = true := by
  induction as with
  | nil => rfl
  | cons a as ih => simp [lexLe, ih]

theorem lexLe_total (as bs : List Char) : lexLe as bs = true ∨ lexLe bs as = true := by
  induction as generalizing bs with
  | nil => left; rfl
  | cons a as ih =>
    cases bs with
    | nil => right; rfl
    | cons b bs =>
      by_cases h1 : a.toNat < b.toNat
      · left; simp [lexLe, h1]
      · by_cases h2 : b.toNat < a.toNat
        · right; simp [lexLe, h2]
        · rcases ih bs with h | h
          · left; simp [lexLe, h1, h2, h]
          · right; simp [lexLe, h1, h2, h]

theorem lexLe_le_head {a b : Char} {as bs : List Char}
    (h : lexLe (a :: as) (b :: bs) = true) : a.toNat ≤ b.toNat := by
  by_contra hab
  have h2 : b.toNat < a.toNat := by omega
  have h1 : ¬ a.toNat < b.toNat := by omega
  simp [lexLe, h1, h2] at h

theorem lexLe_trans {as bs cs : List Char}
    (h1 : lexLe as bs = true) (h2 : lexLe bs cs = true) : lexLe as cs = true := by
  induction as generalizing bs cs with
  | nil => rfl
  | cons a as ih =>
    cases bs with
    | nil => simp [lexLe] at h1
    | cons b bs =>
      cases cs with
      | nil => simp [lexLe] at h2
      | cons c cs =>
        have hab := lexLe_le_head h1
        have hbc := lexLe_le_head h2
        by_cases hac : a.toNat < c.toNat
        · simp [lexLe, hac]
        · have hba : a.toNat = b.toNat := by omega
          have hcb : b.toNat = c.toNat := by omega
          have e1 : ¬ a.toNat < b.toNat := by omega
          have e2 : ¬ b.toNat < a.toNat := by omega
          have e3 : ¬ b.toNat < c.toNat := by omega
          have e4 : ¬ c.toNat < b.toNat := by omega
          simp only [lexLe, e1, e2, e3, e4, if_false, if_neg] at h1 h2
          have := ih h1 h2
          simp [lexLe, hac, this] ; omega

theorem char_toNat_inj {a b : Char} (h : a.toNat = b.toNat) : a = b := by
  have := congrArg Char.ofNat h
  simpa [Char.ofNat_toNat] using this

theorem lexLe_antisymm {as bs : List Char}
    (h1 : lexLe as bs = true) (h2 : lexLe bs as = true) : as = bs := by
  induction as generalizing bs with
  | nil =>
    cases bs with
    | nil => rfl
    | cons b bs => simp [lexLe] at h2
  | cons a as ih =>
    cases bs with
    | nil => simp [lexLe] at h1
    | cons b bs =>
      have hab := lexLe_le_head h1
      have hba := lexLe_le_head h2
      have hn : a.toNat = b.toNat := by omega
      have e1 : ¬ a.toNat < b.toNat := by omega
      have e2 : ¬ b.toNat < a.toNat := by omega
      simp only [lexLe, e1, e2, if_false, if_neg] at h1 h2
      have := ih h1 h2
      rw [char_toNat_inj hn, this]

instance : IsRefl String strLe := ⟨fun a => lexLe_refl a.toList⟩

instance : IsTotal String strLe := ⟨fun a b => lexLe_total a.toList b.toList⟩

instance : IsTrans String strLe := ⟨fun _ _ _ h1 h2 => lexLe_trans h1 h2⟩

instance : IsAntisymm String strLe :=
  ⟨fun a b h1 h2 => by
    have := lexLe_antisymm h1 h2
    exact String.ext this⟩

/-! Facts about `strSort`, the model of Python's `sorted`. -/

theorem strSort_perm (l : List String) : (strSort l).Perm l :=
  List.perm_insertionSort strLe l

theorem strSort_sorted (l : List String) : List.Sorted strLe (strSort l) :=
  List.sorted_insertionSort strLe l

theorem mem_strSort {x : String} {l : List String} : x ∈ strSort l ↔ x ∈ l :=
  (strSort_perm l).mem_iff

theorem strSort_nodup {l : List String} (h : l.Nodup) : (strSort l).Nodup :=
  ((strSort_perm l).nodup_iff).2 h

theorem strSort_eq_of_perm {l1 l2 : List String} (h : l1.Perm l2) : strSort l1 = strSort l2 :=
  List.eq_of_perm_of_sorted (((strSort_perm l1).trans h).trans (strSort_perm l2).symm)
    (strSort_sorted l1) (strSort_sorted l2)

theorem strSort_head_min {l rest : List String} {m : String} (h : strSort l = m :: rest) :
    ∀ x ∈ l, strLe m x := by
  intro x hx
  have hx2 : x ∈ m :: rest := by
    rw [← h]; exact mem_strSort.2 hx
  rcases List.mem_cons.1 hx2 with rfl | hx3
  · exact lexLe_refl _
  · exact List.rel_of_sorted_cons (h ▸ strSort_sorted l) x hx3

theorem strSort_eq_nil {l : List String} (h : strSort l = []) : l = [] := by
  have := strSort_perm l
  rw [h] at this
  exact this.symm.eq_nil

/-- Two duplicate-free lists with the same members are permutations. -/
theorem perm_of_nodup_of_mem_iff {l1 l2 : List String}
    (h1 : l1.Nodup) (h2 : l2.Nodup) (h : ∀ x, x ∈ l1 ↔ x ∈ l2) : l1.Perm l2 := by
  rw [List.perm_iff_count]
  intro a
  by_cases ha : a ∈ l1
  · rw [List.count_eq_one_of_mem h1 ha, List.count_eq_one_of_mem h2 ((h a).1 ha)]
  · rw [List.count_eq_zero_of_not_mem ha,
      List.count_eq_zero_of_not_mem (fun hx => ha ((h a).2 hx))]

/-! Basic facts about the graph operations. -/

theorem mem_filteredDeps {g : Graph} {p d : String} :
    d ∈ filteredDeps g p ↔ d ∈ lookupDeps g p ∧ d ∈ nodesOf g := by
  simp [filteredDeps, List.mem_filter]

theorem filteredDeps_subset_nodes {g : Graph} {p d : String}
    (h : d ∈ filteredDeps g p) : d ∈ nodesOf g :=
  (mem_filteredDeps.1 h).2

theorem lookupDeps_nodup {g : Graph} (hg : WFGraph g) (p : String) :
    (lookupDeps g p).Nodup := by
  unfold lookupDeps
  cases hfind : g.find? (fun e => e.1 == p) with
  | none => exact List.nodup_nil
  | some e => exact hg.2 e (List.mem_of_find?_eq_some hfind)

theorem filteredDeps_nodup {g : Graph} (hg : WFGraph g) (p : String) :
    (filteredDeps g p).Nodup :=
  (lookupDeps_nodup hg p).filter _

theorem mem_dependents {g : Graph} {node q : String} :
    q ∈ dependents g node ↔ q ∈ nodesOf g ∧ node ∈ filteredDeps g q := by
  simp [dependents, List.mem_filter]

theorem dependents_nodup {g : Graph} (hg : WFGraph g) (node : String) :
    (dependents g node).Nodup :=
  hg.1.filter _

theorem mem_ready {g : Graph} {done : List String} {x : String} :
    x ∈ ready g done ↔
      x ∈ nodesOf g ∧ x ∉ done ∧ ∀ d ∈ filteredDeps g x, d ∈ done := by
  simp [ready, List.mem_filter, List.all_eq_true]

theorem ready_nodup {g : Graph} (hg : WFGraph g) (done : List String) :
    (ready g done).Nodup :=
  hg.1.filter _

/-! Facts about the remaining-dependency count. -/

theorem remCount_eq_zero_iff {g : Graph} {result : List String} {n : String} :
    remCount g result n = 0 ↔ ∀ d ∈ filteredDeps g n, d ∈ result := by
  unfold remCount
  rw [List.length_eq_zero, List.filter_eq_nil_iff]
  constructor
  · intro h d hd
    have := h d hd
    simpa using this
  · intro h d hd
    simpa using h d hd

theorem remCount_append_of_mem {g : Graph} (hg : WFGraph g) {result : List String}
    {m n : String} (hmem : m ∈ filteredDeps g n) (hnot : m ∉ result) :
    1 ≤ remCount g result n ∧
      remCount g (result ++ [m]) n = remCount g result n - 1 := by
  classical
  have hstep :
      (filteredDeps g n).filter (fun d => !(result ++ [m]).contains d) =
        ((filteredDeps g n).filter (fun d => !result.contains d)).filter
          (fun d => d != m) := by
    rw [List.filter_filter]
    apply List.filter_congr
    intro d _
    by_cases hdm : d = m
    · subst hdm; simp
    · by_cases hdr : d ∈ result <;> simp [hdr, hdm]
  have hmemf : m ∈ (filteredDeps g n).filter (fun d => !result.contains d) := by
    rw [List.mem_filter]
    exact ⟨hmem, by simpa using hnot⟩
  have hnd : ((filteredDeps g n).filter (fun d => !result.contains d)).Nodup :=
    (filteredDeps_nodup hg n).filter _
  have hlen : 1 ≤ remCount g result n := by
    unfold remCount
    have := List.length_pos.2 (List.ne_nil_of_mem hmemf)
    omega
  refine ⟨hlen, ?_⟩
  unfold remCount
  rw [hstep, ← hnd.erase_eq_filter m, List.length_erase_of_mem hmemf]

theorem remCount_append_of_not_mem {g : Graph} {result : List String}
    {m n : String} (hmem : m ∉ filteredDeps g n) :
    remCount g (result ++ [m]) n = remCount g result n := by
  unfold remCount
  congr 1
  apply List.filter_congr
  intro d hd
  have hdm : ¬ d = m := fun h => hmem (h ▸ hd)
  by_cases hdr : d ∈ result <;> simp [hdr, hdm]

/-! The inner `for dependent in reverse_graph` fold. -/

theorem kahnFold_spec (ds : List String) (hds : ds.Nodup) :
    ∀ (indeg : String → Int) (q : List String),
      (∀ x, (ds.foldl kahnFoldStep (indeg, q)).1 x =
        if x ∈ ds then indeg x - 1 else indeg x) ∧
      (ds.foldl kahnFoldStep (indeg, q)).2 =
        q ++ ds.filter (fun d => indeg d - 1 = 0) := by
  induction ds with
  | nil => intro indeg q; simp
  | cons d ds ih =>
    intro indeg q
    have hdnot : d ∉ ds := (List.nodup_cons.1 hds).1
    have hnd : ds.Nodup := (List.nodup_cons.1 hds).2
    have hstep : kahnFoldStep (indeg, q) d =
        ((fun x => if x = d then indeg x - 1 else indeg x),
          if indeg d - 1 = 0 then q ++ [d] else q) := by
      unfold kahnFoldStep
      by_cases h : indeg d - 1 = 0 <;> simp [h]
    rcases ih hnd (fun x => if x = d then indeg x - 1 else indeg x)
        (if indeg d - 1 = 0 then q ++ [d] else q) with ⟨ih1, ih2⟩
    constructor
    · intro x
      rw [List.foldl_cons, hstep, ih1 x]
      by_cases hx : x ∈ ds
      · have hxd : ¬ x = d := fun h => hdnot (h ▸ hx)
        simp [hx, hxd, List.mem_cons]
      · by_cases hxd : x = d
        · subst hxd; simp [hx, hdnot]
        · simp [hx, hxd, List.mem_cons]
    · rw [List.foldl_cons, hstep, ih2]
      have hcong : ds.filter (fun x => (if x = d then indeg x - 1 else indeg x) - 1 = 0) =
          ds.filter (fun x => indeg x - 1 = 0) := by
        apply List.filter_congr
        intro x hx
        have hxd : ¬ x = d := fun h => hdnot (h ▸ hx)
        simp [hxd]
      rw [hcong]
      by_cases h : indeg d - 1 = 0 <;> simp [h, List.filter_cons]

/-! Equivalence of the concrete Kahn loop with the greedy specification. -/

theorem greedy_succ_nil {g : Graph} {done : List String} {fuel : Nat}
    (h : strSort (ready g done) = []) : greedy g (fuel + 1) done = done := by
  simp [greedy, h]

theorem greedy_succ_cons {g : Graph} {done rest : List String} {m : String} {fuel : Nat}
    (h : strSort (ready g done) = m :: rest) :
    greedy g (fuel + 1) done = greedy g fuel (done ++ [m]) := by
  simp [greedy, h]

theorem kahnLoop_succ_nil {g : Graph} {indeg : String → Int} {queue result : List String}
    {fuel : Nat} (h : strSort queue = []) :
    kahnLoop g (fuel + 1) indeg queue result = result := by
  simp [kahnLoop, h]

theorem kahnLoop_succ_cons {g : Graph} {indeg : String → Int} {queue result rest : List String}
    {m : String} {fuel : Nat} (h : strSort queue = m :: rest) :
    kahnLoop g (fuel + 1) indeg queue result =
      kahnLoop g fuel ((dependents g m).foldl kahnFoldStep (indeg, rest)).1
        ((dependents g m).foldl kahnFoldStep (indeg, rest)).2 (result ++ [m]) := by
  simp [kahnLoop, h]

theorem kahnInv_queue_perm {g : Graph} {indeg : String → Int} {queue result : List String}
    (hg : WFGraph g) (hinv : KahnInv g indeg queue result) :
    queue.Perm (ready g result) := by
  apply perm_of_nodup_of_mem_iff hinv.2.2.2.1 (ready_nodup hg result)
  intro x
  rw [hinv.2.2.2.2.1 x, mem_ready]

theorem kahnInv_init (g : Graph) (hg : WFGraph g) :
    KahnInv g (initIndeg g) (initQueue g) [] := by
  refine ⟨List.nodup_nil, by simp, by simp, hg.1.filter _, ?_, ?_⟩
  · intro q
    simp only [initQueue, List.mem_filter]
    constructor
    · rintro ⟨hq, hlen⟩
      refine ⟨hq, by simp, ?_⟩
      intro d hd
      have hnil : filteredDeps g q = [] := List.length_eq_zero.1 (by simpa using hlen)
      rw [hnil] at hd
      simp at hd
    · rintro ⟨hq, -, hall⟩
      refine ⟨hq, ?_⟩
      have : filteredDeps g q = [] := by
        rcases hfd : filteredDeps g q with _ | ⟨d, ds⟩
        · rfl
        · have := hall d (by rw [hfd]; simp)
          simp at this
      simp [this]
  · intro n _
    simp [initIndeg, remCount]

/-- Main equivalence: under the loop invariant, the concrete Kahn loop
computes exactly the greedy emit-the-least-ready-package sequence. -/
theorem kahn_eq_greedy {g : Graph} (hg : WFGraph g) :
    ∀ (fuel : Nat) (indeg : String → Int) (queue result : List String),
      KahnInv g indeg queue result →
      kahnLoop g fuel indeg queue result = greedy g fuel result := by
  intro fuel
  induction fuel with
  | zero => intro indeg queue result _; rfl
  | succ fuel ih =>
    intro indeg queue result hinv
    have hperm := kahnInv_queue_perm hg hinv
    have hsorteq : strSort queue = strSort (ready g result) := strSort_eq_of_perm hperm
    rcases hq : strSort queue with _ | ⟨m, rest⟩
    · rw [kahnLoop_succ_nil hq, greedy_succ_nil (hsorteq.symm.trans hq)]
    · have hready : strSort (ready g result) = m :: rest := hsorteq.symm.trans hq
      rcases hinv with ⟨hrnd, hrmem, hrcl, hqnd, hqiff, hindeg⟩
      have hmq : m ∈ queue := mem_strSort.1 (by rw [hq]; exact List.mem_cons_self m rest)
      rcases (hqiff m).1 hmq with ⟨hmn, hmnr, hmdeps⟩
      have hsortnd : (m :: rest).Nodup := hq ▸ strSort_nodup hqnd
      have hmrest : m ∉ rest := (List.nodup_cons.1 hsortnd).1
      have hrestnd : rest.Nodup := (List.nodup_cons.1 hsortnd).2
      have hrest_sub : ∀ x ∈ rest, x ∈ queue := fun x hx =>
        mem_strSort.1 (by rw [hq]; exact List.mem_cons_of_mem m hx)
      have hdepnd := dependents_nodup hg m
      rcases kahnFold_spec (dependents g m) hdepnd indeg rest with ⟨hf1, hf2⟩
      have hnewly : ∀ q, q ∈ (dependents g m).filter (fun d => indeg d - 1 = 0) ↔
          (q ∈ nodesOf g ∧ m ∈ filteredDeps g q ∧ remCount g result q = 1) := by
        intro q
        rw [List.mem_filter, mem_dependents]
        constructor
        · rintro ⟨⟨hqn, hqd⟩, hcond⟩
          refine ⟨hqn, hqd, ?_⟩
          have heq := hindeg q hqn
          have hcond2 : indeg q - 1 = 0 := by simpa using hcond
          omega
        · rintro ⟨hqn, hqd, hrc⟩
          have heq := hindeg q hqn
          exact ⟨⟨hqn, hqd⟩, by simp; omega⟩
      have hrnd2 : (result ++ [m]).Nodup := by
        rw [List.nodup_append]
        refine ⟨hrnd, by simp, ?_⟩
        intro a ha ham
        rw [List.mem_singleton] at ham
        exact hmnr (ham ▸ ha)
      have hrmem2 : ∀ r ∈ result ++ [m], r ∈ nodesOf g := by
        intro r hr
        rcases List.mem_append.1 hr with h | h
        · exact hrmem r h
        · rw [List.mem_singleton] at h; exact h ▸ hmn
      have hrcl2 : ∀ r ∈ result ++ [m], ∀ d ∈ filteredDeps g r, d ∈ result ++ [m] := by
        intro r hr d hd
        rcases List.mem_append.1 hr with h | h
        · exact List.mem_append_left _ (hrcl r h d hd)
        · rw [List.mem_singleton] at h
          exact List.mem_append_left _ (hmdeps d (h ▸ hd))
      have hqnd2 : (((dependents g m).foldl kahnFoldStep (indeg, rest)).2).Nodup := by
        rw [hf2, List.nodup_append]
        refine ⟨hrestnd, hdepnd.filter _, ?_⟩
        intro a ha hanew
        rcases (hnewly a).1 hanew with ⟨han, hamd, harc⟩
        rcases (hqiff a).1 (hrest_sub a ha) with ⟨h1, h2, h3⟩
        have h0 : remCount g result a = 0 := remCount_eq_zero_iff.2 h3
        omega
      have hqiff2 : ∀ q, q ∈ ((dependents g m).foldl kahnFoldStep (indeg, rest)).2 ↔
          (q ∈ nodesOf g ∧ q ∉ result ++ [m] ∧
            ∀ d ∈ filteredDeps g q, d ∈ result ++ [m]) := by
        intro q
        rw [hf2, List.mem_append, hnewly q]
        constructor
        · rintro (hqr | ⟨hqn, hqd, hrc⟩)
          · have hqq := hrest_sub q hqr
            rcases (hqiff q).1 hqq with ⟨h1, h2, h3⟩
            have hqm : q ≠ m := fun h => hmrest (h ▸ hqr)
            refine ⟨h1, ?_, fun d hd => List.mem_append_left _ (h3 d hd)⟩
            intro hmem
            rcases List.mem_append.1 hmem with h | h
            · exact h2 h
            · rw [List.mem_singleton] at h; exact hqm h
          · have hq_nr : q ∉ result := fun hqr2 => hmnr (hrcl q hqr2 m hqd)
            have hq_ne : q ≠ m := by
              intro h; subst h
              exact hmnr (hmdeps q hqd)
            have hfilter : (filteredDeps g q).filter (fun d => !result.contains d) = [m] := by
              rcases List.length_eq_one.1 hrc with ⟨a, ha⟩
              have hma : m ∈ [a] := by
                rw [← ha, List.mem_filter]
                exact ⟨hqd, by simpa using hmnr⟩
              rw [List.mem_singleton] at hma
              rw [ha, ← hma]
            refine ⟨hqn, ?_, ?_⟩
            · intro hmem
              rcases List.mem_append.1 hmem with h | h
              · exact hq_nr h
              · rw [List.mem_singleton] at h; exact hq_ne h
            · intro d hd
              by_cases hdr : d ∈ result
              · exact List.mem_append_left _ hdr
              · have hdm : d ∈ [m] := by
                  rw [← hfilter, List.mem_filter]
                  exact ⟨hd, by simpa using hdr⟩
                rw [List.mem_singleton] at hdm
                exact List.mem_append_right _ (by simp [hdm])
        · rintro ⟨hqn, hqnr, hqdeps⟩
          have hq_nr : q ∉ result := fun h => hqnr (List.mem_append_left _ h)
          have hq_ne : q ≠ m := fun h => hqnr (by rw [h]; simp)
          by_cases hmd : m ∈ filteredDeps g q
          · right
            refine ⟨hqn, hmd, ?_⟩
            have hsubm : ∀ x ∈ (filteredDeps g q).filter (fun d => !result.contains d),
                x = m := by
              intro x hx
              rw [List.mem_filter] at hx
              rcases List.mem_append.1 (hqdeps x hx.1) with h | h
              · exact absurd h (by simpa using hx.2)
              · simpa using h
            have hmemf : m ∈ (filteredDeps g q).filter (fun d => !result.contains d) := by
              rw [List.mem_filter]
              exact ⟨hmd, by simpa using hmnr⟩
            have hndf := (filteredDeps_nodup hg q).filter (fun d => !result.contains d)
            rcases hflt : (filteredDeps g q).filter (fun d => !result.contains d)
              with _ | ⟨x, t⟩
            · rw [hflt] at hmemf; simp at hmemf
            · rcases ht : t with _ | ⟨y, t2⟩
              · unfold remCount; rw [hflt, ht]; rfl
              · exfalso
                have hx : x = m := hsubm x (by rw [hflt]; exact List.mem_cons_self x t)
                have hy : y = m := hsubm y (by
                  rw [hflt, ht]
                  exact List.mem_cons_of_mem x (List.mem_cons_self y t2))
                rw [hflt, ht] at hndf
                have := (List.nodup_cons.1 hndf).1
                exact this (by rw [hx, ← hy]; exact List.mem_cons_self y t2)
          · left
            have hdeps : ∀ d ∈ filteredDeps g q, d ∈ result := by
              intro d hd
              rcases List.mem_append.1 (hqdeps d hd) with h | h
              · exact h
              · rw [List.mem_singleton] at h
                exact absurd (h ▸ hd) hmd
            have hqq : q ∈ queue := (hqiff q).2 ⟨hqn, hq_nr, hdeps⟩
            have hqs : q ∈ m :: rest := by
              rw [← hq]; exact mem_strSort.2 hqq
            rcases List.mem_cons.1 hqs with h | h
            · exact absurd h hq_ne
            · exact h
      have hindeg2 : ∀ n ∈ nodesOf g,
          ((dependents g m).foldl kahnFoldStep (indeg, rest)).1 n =
            (remCount g (result ++ [m]) n : Int) := by
        intro n hn
        rw [hf1 n]
        by_cases hnd2 : n ∈ dependents g m
        · have hmd : m ∈ filteredDeps g n := (mem_dependents.1 hnd2).2
          rcases remCount_append_of_mem hg hmd hmnr with ⟨h1, h2⟩
          rw [if_pos hnd2, hindeg n hn, h2]
          omega
        · have hmd : m ∉ filteredDeps g n := by
            intro h
            exact hnd2 (mem_dependents.2 ⟨hn, h⟩)
          rw [if_neg hnd2, hindeg n hn, remCount_append_of_not_mem hmd]
      rw [kahnLoop_succ_cons hq, greedy_succ_cons hready]
      exact ih _ _ _ ⟨hrnd2, hrmem2, hrcl2, hqnd2, hqiff2, hindeg2⟩

/-! Properties of the greedy specification loop. -/

theorem greedy_prefix {g : Graph} :
    ∀ (fuel : Nat) (done : List String), ∃ suffix, greedy g fuel done = done ++ suffix := by
  intro fuel
  induction fuel with
  | zero => intro done; exact ⟨[], by simp [greedy]⟩
  | succ fuel ih =>
    intro done
    rcases hs : strSort (ready g done) with _ | ⟨m, rest⟩
    · exact ⟨[], by rw [greedy_succ_nil hs]; simp⟩
    · rcases ih (done ++ [m]) with ⟨suffix, hsf⟩
      exact ⟨m :: suffix, by rw [greedy_succ_cons hs, hsf]; simp⟩

theorem ordered_append {g : Graph} {done : List String} {m : String}
    (hdone : OrderedOut g done) (hmn : m ∈ nodesOf g) (hmnr : m ∉ done)
    (hmdeps : ∀ d ∈ filteredDeps g m, d ∈ done) : OrderedOut g (done ++ [m]) := by
  rcases hdone with ⟨hnd, hmem, hord⟩
  refine ⟨?_, ?_, ?_⟩
  · rw [List.nodup_append]
    refine ⟨hnd, by simp, ?_⟩
    intro a ha ham
    rw [List.mem_singleton] at ham
    exact hmnr (ham ▸ ha)
  · intro p hp
    rcases List.mem_append.1 hp with h | h
    · exact hmem p h
    · rw [List.mem_singleton] at h; exact h ▸ hmn
  · intro p hp d hd
    rcases List.mem_append.1 hp with h | h
    · rcases hord p h d hd with ⟨hdm, hlt⟩
      refine ⟨List.mem_append_left _ hdm, ?_⟩
      rw [List.indexOf_append_of_mem hdm, List.indexOf_append_of_mem h]
      exact hlt
    · rw [List.mem_singleton] at h
      subst h
      have hdm := hmdeps d hd
      refine ⟨List.mem_append_left _ hdm, ?_⟩
      rw [List.indexOf_append_of_mem hdm, List.indexOf_append_of_not_mem hmnr,
        List.indexOf_cons_self]
      have := List.indexOf_lt_length.2 hdm
      omega

theorem greedy_ordered {g : Graph} :
    ∀ (fuel : Nat) (done : List String), OrderedOut g done →
      OrderedOut g (greedy g fuel done) := by
  intro fuel
  induction fuel with
  | zero => intro done h; exact h
  | succ fuel ih =>
    intro done h
    rcases hs : strSort (ready g done) with _ | ⟨m, rest⟩
    · rw [greedy_succ_nil hs]; exact h
    · rw [greedy_succ_cons hs]
      have hm : m ∈ ready g done := mem_strSort.1 (by rw [hs]; exact List.mem_cons_self m rest)
      rcases mem_ready.1 hm with ⟨hmn, hmnr, hmdeps⟩
      exact ih (done ++ [m]) (ordered_append h hmn hmnr hmdeps)

theorem greedy_ready_empty {g : Graph} :
    ∀ (fuel : Nat) (done : List String),
      (nodesOf g).length ≤ fuel + done.length → done.Nodup →
      (∀ x ∈ done, x ∈ nodesOf g) → ready g (greedy g fuel done) = [] := by
  intro fuel
  induction fuel with
  | zero =>
    intro done hlen hnd hmem
    show ready g done = []
    rw [ready, List.filter_eq_nil_iff]
    intro n hn
    have hsub : done.toFinset ⊆ (nodesOf g).toFinset := by
      intro a ha
      exact List.mem_toFinset.2 (hmem a (List.mem_toFinset.1 ha))
    have hcards : (nodesOf g).toFinset.card ≤ done.toFinset.card := by
      rw [List.toFinset_card_of_nodup hnd]
      calc (nodesOf g).toFinset.card ≤ (nodesOf g).length := List.toFinset_card_le _
        _ ≤ done.length := by omega
    have heqf := Finset.eq_of_subset_of_card_le hsub hcards
    have hnin : n ∈ done := by
      have : n ∈ (nodesOf g).toFinset := List.mem_toFinset.2 hn
      rw [← heqf] at this
      exact List.mem_toFinset.1 this
    simp [hnin]
  | succ fuel ih =>
    intro done hlen hnd hmem
    rcases hs : strSort (ready g done) with _ | ⟨m, rest⟩
    · rw [greedy_succ_nil hs]
      exact strSort_eq_nil hs
    · rw [greedy_succ_cons hs]
      have hm : m ∈ ready g done := mem_strSort.1 (by rw [hs]; exact List.mem_cons_self m rest)
      rcases mem_ready.1 hm with ⟨hmn, hmnr, -⟩
      apply ih (done ++ [m])
      · simp; omega
      · rw [List.nodup_append]
        refine ⟨hnd, by simp, ?_⟩
        intro a ha ham
        rw [List.mem_singleton] at ham
        exact hmnr (ham ▸ ha)
      · intro x hx
        rcases List.mem_append.1 hx with h | h
        · exact hmem x h
        · rw [List.mem_singleton] at h; exact h ▸ hmn

/-! Cycle extraction when the loop stalls. -/

theorem hasEdge_mem_left {g : Graph} {p d : String} (h : hasEdge g p d) :
    p ∈ nodesOf g := by
  unfold hasEdge filteredDeps lookupDeps at h
  rcases hfind : g.find? (fun e => e.1 == p) with _ | e
  · rw [hfind] at h; simp at h
  · have he1 : e.1 = p := by simpa using List.find?_some hfind
    have := List.mem_of_find?_eq_some hfind
    rw [← he1]
    exact List.mem_map_of_mem Prod.fst this

theorem transGen_src_mem {g : Graph} {a b : String}
    (h : Relation.TransGen (hasEdge g) a b) : a ∈ nodesOf g := by
  induction h with
  | single he => exact hasEdge_mem_left he
  | tail _ _ ih => exact ih

theorem cycle_of_closed_set {g : Graph} {S : List String} (hne : S ≠ [])
    (hcl : ∀ a ∈ S, ∃ b, b ∈ S ∧ hasEdge g a b) :
    ∃ n, Relation.TransGen (hasEdge g) n n := by
  classical
  have hfex : ∀ a, a ∈ S → ∃ b, b ∈ S ∧ hasEdge g a b := hcl
  let f : String → String := fun a =>
    if h : ∃ b, b ∈ S ∧ hasEdge g a b then h.choose else a
  have hf : ∀ a ∈ S, f a ∈ S ∧ hasEdge g a (f a) := by
    intro a ha
    have h : ∃ b, b ∈ S ∧ hasEdge g a b := hfex a ha
    have hfa : f a = h.choose := dif_pos h
    rw [hfa]
    exact ⟨h.choose_spec.1, h.choose_spec.2⟩
  obtain ⟨a0, ha0⟩ : ∃ a, a ∈ S := by
    rcases S with _ | ⟨a, t⟩
    · exact absurd rfl hne
    · exact ⟨a, List.mem_cons_self a t⟩
  have hiter : ∀ k, f^[k] a0 ∈ S := by
    intro k
    induction k with
    | zero => simpa
    | succ k ih =>
      rw [Function.iterate_succ_apply']
      exact (hf _ ih).1
  have hstep : ∀ i d, 0 < d →
      Relation.TransGen (hasEdge g) (f^[i] a0) (f^[i + d] a0) := by
    intro i d
    induction d with
    | zero => omega
    | succ d ihd =>
      intro _
      rcases Nat.eq_zero_or_pos d with rfl | hdpos
      · rw [show i + 1 = Nat.succ i from rfl, Function.iterate_succ_apply']
        exact Relation.TransGen.single (hf _ (hiter i)).2
      · have h1 := ihd hdpos
        have h2 : hasEdge g (f^[i + d] a0) (f^[i + d + 1] a0) := by
          rw [show i + d + 1 = Nat.succ (i + d) from rfl, Function.iterate_succ_apply']
          exact (hf _ (hiter (i + d))).2
        exact h1.tail h2
  have hcard : S.toFinset.card < (Finset.range (S.toFinset.card + 1)).card := by simp
  have hmaps : ∀ k ∈ Finset.range (S.toFinset.card + 1), f^[k] a0 ∈ S.toFinset :=
    fun k _ => List.mem_toFinset.2 (hiter k)
  obtain ⟨i, hi, j, hj, hij, heq⟩ :=
    Finset.exists_ne_map_eq_of_card_lt_of_maps_to hcard hmaps
  rcases Nat.lt_or_ge i j with h | h
  · have t := hstep i (j - i) (by omega)
    rw [show i + (j - i) = j by omega] at t
    rw [← heq] at t
    exact ⟨f^[i] a0, t⟩
  · have hji : j < i := by omega
    have t := hstep j (i - j) (by omega)
    rw [show j + (i - j) = i by omega] at t
    rw [heq] at t
    exact ⟨f^[j] a0, t⟩

theorem ordered_no_cycle {g : Graph} {l : List String} (h : OrderedOut g l) :
    ∀ n ∈ l, ¬ Relation.TransGen (hasEdge g) n n := by
  have aux : ∀ a b, Relation.TransGen (hasEdge g) a b → a ∈ l →
      b ∈ l ∧ List.indexOf b l < List.indexOf a l := by
    intro a b hab ha
    induction hab with
    | single he => exact h.2.2 a ha _ he
    | tail hab2 he ih =>
      rcases ih with ⟨hb, hlt⟩
      rcases h.2.2 _ hb _ he with ⟨hc, hlt2⟩
      exact ⟨hc, lt_trans hlt2 hlt⟩
  intro n hn hcontra
  rcases aux n n hcontra hn with ⟨-, hlt⟩
  omega

/-! Assembled facts about `topological_sort`. -/

theorem mem_of_subset_of_length {l1 l2 : List String} (h1 : l1.Nodup)
    (hsub : ∀ x ∈ l1, x ∈ l2) (hlen : l2.length ≤ l1.length) :
    ∀ x ∈ l2, x ∈ l1 := by
  intro x hx
  have hsubf : l1.toFinset ⊆ l2.toFinset := by
    intro a ha
    exact List.mem_toFinset.2 (hsub a (List.mem_toFinset.1 ha))
  have hcards : l2.toFinset.card ≤ l1.toFinset.card := by
    rw [List.toFinset_card_of_nodup h1]
    calc l2.toFinset.card ≤ l2.length := List.toFinset_card_le _
      _ ≤ l1.length := hlen
  have heqf := Finset.eq_of_subset_of_card_le hsubf hcards
  have : x ∈ l2.toFinset := List.mem_toFinset.2 hx
  rw [← heqf] at this
  exact List.mem_toFinset.1 this

theorem topoResult_eq_greedy {g : Graph} (hg : WFGraph g) :
    topoResult g = greedy g g.length [] :=
  kahn_eq_greedy hg g.length _ _ _ (kahnInv_init g hg)

theorem topoResult_ordered {g : Graph} (hg : WFGraph g) : OrderedOut g (topoResult g) := by
  rw [topoResult_eq_greedy hg]
  exact greedy_ordered _ _ ⟨List.nodup_nil, by simp, by simp⟩

theorem topoResult_ready_empty {g : Graph} (hg : WFGraph g) :
    ready g (topoResult g) = [] := by
  rw [topoResult_eq_greedy hg]
  apply greedy_ready_empty
  · simp [nodesOf]
  · exact List.nodup_nil
  · simp

theorem topoResult_complete {g : Graph} (hg : WFGraph g) (hacyc : Acyclic g) :
    ∀ n ∈ nodesOf g, n ∈ topoResult g := by
  by_contra hcon
  push_neg at hcon
  obtain ⟨n, hn, hnot⟩ := hcon
  have hready := topoResult_ready_empty hg
  rw [ready, List.filter_eq_nil_iff] at hready
  have hclosed : ∀ a ∈ (nodesOf g).filter (fun x => !(topoResult g).contains x),
      ∃ b, b ∈ (nodesOf g).filter (fun x => !(topoResult g).contains x) ∧ hasEdge g a b := by
    intro a ha
    rw [List.mem_filter] at ha
    rcases ha with ⟨han, hanot⟩
    have hanot2 : a ∉ topoResult g := by simpa using hanot
    have := hready a han
    simp only [Bool.and_eq_true, Bool.not_eq_true', List.all_eq_true, not_and] at this
    have hex := this (by simpa using hanot2)
    push_neg at hex
    obtain ⟨d, hd, hdnot⟩ := hex
    refine ⟨d, ?_, hd⟩
    rw [List.mem_filter]
    exact ⟨filteredDeps_subset_nodes hd, by simpa using hdnot⟩
  have hne : (nodesOf g).filter (fun x => !(topoResult g).contains x) ≠ [] := by
    apply List.ne_nil_of_mem (a := n)
    rw [List.mem_filter]
    exact ⟨hn, by simpa using hnot⟩
  obtain ⟨n0, hn0⟩ := cycle_of_closed_set hne hclosed
  exact hacyc n0 hn0

theorem dedup_nodes_length {g : Graph} (hg : WFGraph g) :
    (nodesOf g).dedup.length = (nodesOf g).length := by
  rw [List.dedup_eq_self.2 (show (nodesOf g).Nodup from hg.1)]

theorem topological_sort_ok_of_acyclic {g : Graph} (hg : WFGraph g) (hacyc : Acyclic g) :
    topological_sort g = Except.ok (topoResult g) := by
  unfold topological_sort
  rw [if_pos]
  rw [dedup_nodes_length hg]
  have hperm : (topoResult g).Perm (nodesOf g) := by
    apply perm_of_nodup_of_mem_iff (topoResult_ordered hg).1 hg.1
    intro x
    exact ⟨fun h => (topoResult_ordered hg).2.1 x h, fun h => topoResult_complete hg hacyc x h⟩
  exact hperm.length_eq

theorem not_mem_topoResult_of_cycle {g : Graph} (hg : WFGraph g) {n0 : String}
    (hc : Relation.TransGen (hasEdge g) n0 n0) :
    n0 ∈ nodesOf g ∧ n0 ∉ topoResult g :=
  ⟨transGen_src_mem hc,
    fun hmem => ordered_no_cycle (topoResult_ordered hg) n0 hmem hc⟩

theorem topological_sort_error_of_cycle {g : Graph} (hg : WFGraph g)
    (hcyc : ∃ n, Relation.TransGen (hasEdge g) n n) :
    topological_sort g = Except.error (cycleReport g (topoResult g)) := by
  obtain ⟨n0, hn0⟩ := hcyc
  rcases not_mem_topoResult_of_cycle hg hn0 with ⟨hnn, hnot⟩
  unfold topological_sort
  rw [if_neg]
  rw [dedup_nodes_length hg]
  intro hlen
  have hall := mem_of_subset_of_length (topoResult_ordered hg).1
    (topoResult_ordered hg).2.1 (le_of_eq hlen.symm)
  exact hnot (hall n0 hnn)

theorem topological_sort_ok_spec {g : Graph} (hg : WFGraph g) {l : List String}
    (h : topological_sort g = Except.ok l) :
    l = topoResult g ∧ (∀ n, n ∈ l ↔ n ∈ nodesOf g) := by
  unfold topological_sort at h
  by_cases hcond : (topoResult g).length = (nodesOf g).dedup.length
  · rw [if_pos hcond] at h
    have hl : l = topoResult g := (Except.ok.injEq _ _ ▸ h).symm
    subst hl
    rw [dedup_nodes_length hg] at hcond
    refine ⟨rfl, fun n => ⟨fun hn => (topoResult_ordered hg).2.1 n hn, fun hn => ?_⟩⟩
    exact mem_of_subset_of_length (topoResult_ordered hg).1
      (topoResult_ordered hg).2.1 (le_of_eq hcond.symm) n hn
  · rw [if_neg hcond] at h
    exact absurd h (by simp)

/-- A rank function decreasing along edges witnesses acyclicity. -/
theorem acyclic_of_rank {g : Graph} (rank : String → Nat)
    (h : ∀ p d, hasEdge g p d → rank d < rank p) : Acyclic g := by
  intro n hc
  have aux : ∀ a b, Relation.TransGen (hasEdge g) a b → rank b < rank a := by
    intro a b hab
    induction hab with
    | single he => exact h _ _ he
    | tail _ he ih => exact lt_trans (h _ _ he) ih
  exact absurd (aux n n hc) (lt_irrefl _)

/-- C1: for every acyclic dependency graph, `topological_sort` succeeds and
the returned sequence contains each node exactly once and places every
(filtered) dependency strictly before every package that declares it. -/
theorem C1_acyclic_topological_order :
    ∀ g : Graph, WFGraph g → Acyclic g →
    ∃ l, topological_sort g = Except.ok l ∧
      (∀ n, List.count n l = if n ∈ nodesOf g then 1 else 0) ∧
      (∀ p ∈ l, ∀ d ∈ filteredDeps g p, List.indexOf d l < List.indexOf p l) := by
  intro g hg hacyc
  refine ⟨topoResult g, topological_sort_ok_of_acyclic hg hacyc, ?_, ?_⟩
  · intro n
    by_cases hn : n ∈ nodesOf g
    · rw [if_pos hn,
        List.count_eq_one_of_mem (topoResult_ordered hg).1 (topoResult_complete hg hacyc n hn)]
    · rw [if_neg hn,
        List.count_eq_zero_of_not_mem (fun hmem => hn ((topoResult_ordered hg).2.1 n hmem))]
  · intro p hp d hd
    exact ((topoResult_ordered hg).2.2 p hp d hd).2

/-- Witness for C1 at the spec's example graph `a → b → c`. -/
theorem C1_witness :
    WFGraph exA ∧ Acyclic exA ∧
    (∃ l, topological_sort exA = Except.ok l ∧
      (∀ n, List.count n l = if n ∈ nodesOf exA then 1 else 0) ∧
      (∀ p ∈ l, ∀ d ∈ filteredDeps exA p, List.indexOf d l < List.indexOf p l)) :=
  have hwf : WFGraph exA := by
    constructor
    · decide
    · decide
  have hacyc : Acyclic exA := by
    apply acyclic_of_rank (fun s => if s = "a" then 2 else if s = "b" then 1 else 0)
    intro p d h
    have hp : p ∈ nodesOf exA := hasEdge_mem_left h
    have hp2 : p = "a" ∨ p = "b" ∨ p = "c" := by simpa [exA, nodesOf] using hp
    rcases hp2 with rfl | rfl | rfl
    · have hd : d ∈ filteredDeps exA "a" := h
      have he : filteredDeps exA "a" = ["b"] := by decide
      rw [he] at hd
      have : d = "b" := by simpa using hd
      subst this
      decide
    · have hd : d ∈ filteredDeps exA "b" := h
      have he : filteredDeps exA "b" = ["c"] := by decide
      rw [he] at hd
      have : d = "c" := by simpa using hd
      subst this
      decide
    · have hd : d ∈ filteredDeps exA "c" := h
      have he : filteredDeps exA "c" = [] := by decide
      rw [he] at hd
      simp at hd
  ⟨hwf, hacyc, C1_acyclic_topological_order exA hwf hacyc⟩

/-- C2 counterexample: on the graph with cycle `a ↔ b`, package `c`
depending on `a` and `d`, and `d` free, the diagnostic entry for `c` lists
`d`, which is not a remaining (unordered) package — so the reported set is
the full filtered dependency set, not its intersection with the remaining
set as the claim states. -/
theorem C2_counterexample :
    topological_sort exCyc =
      Except.error [("a", ["b"]), ("b", ["a"]), ("c", ["a", "d"])] ∧
    "d" ∈ (["a", "d"] : List String) ∧
    "d" ∉ ([("a", ["b"]), ("b", ["a"]), ("c", ["a", "d"])].map
      (Prod.fst : String × List String → String)) := by
  refine ⟨rfl, by decide, by decide⟩

/-- C2 as amended: on a graph with a dependency cycle, `topological_sort`
fails with a diagnostic that names every package on any cycle and pairs
each reported package with its full (sorted, filtered) dependency set, and
the whole run exits with status 1 before any package is built and before
any execution environment is started. -/
theorem C2_cycle_fatal_report :
    ∀ g : Graph, WFGraph g → (∃ n, Relation.TransGen (hasEdge g) n n) →
    ∃ rep, topological_sort g = Except.error rep ∧
      rep ≠ [] ∧
      (∀ pr ∈ rep, pr.1 ∈ nodesOf g ∧ pr.2 = strSort (filteredDeps g pr.1)) ∧
      (∀ n, Relation.TransGen (hasEdge g) n n → n ∈ rep.map Prod.fst) ∧
      (∀ env platform skipE sp dr,
        mainModel env platform skipE sp dr g = (initRunState, 1)) := by
  intro g hg hcyc
  refine ⟨cycleReport g (topoResult g), topological_sort_error_of_cycle hg hcyc, ?_, ?_, ?_, ?_⟩
  · obtain ⟨n0, hn0⟩ := hcyc
    rcases not_mem_topoResult_of_cycle hg hn0 with ⟨hnn, hnot⟩
    have hmem : n0 ∈ (nodesOf g).filter (fun n => !(topoResult g).contains n) := by
      rw [List.mem_filter]
      exact ⟨hnn, by simpa using hnot⟩
    have : n0 ∈ strSort ((nodesOf g).filter (fun n => !(topoResult g).contains n)) :=
      mem_strSort.2 hmem
    unfold cycleReport
    intro hnil
    rw [List.map_eq_nil_iff] at hnil
    rw [hnil] at this
    simp at this
  · intro pr hpr
    unfold cycleReport at hpr
    rcases List.mem_map.1 hpr with ⟨p, hp, hpeq⟩
    have hp2 : p ∈ (nodesOf g).filter (fun n => !(topoResult g).contains n) :=
      mem_strSort.1 hp
    rw [← hpeq]
    exact ⟨(List.mem_filter.1 hp2).1, rfl⟩
  · intro n hn
    rcases not_mem_topoResult_of_cycle hg hn with ⟨hnn, hnot⟩
    unfold cycleReport
    rw [List.map_map]
    have hcomp : ((Prod.fst : String × List String → String) ∘
        fun p => (p, strSort (filteredDeps g p))) = id := by
      funext p; rfl
    rw [hcomp, List.map_id]
    apply mem_strSort.2
    rw [List.mem_filter]
    exact ⟨hnn, by simpa using hnot⟩
  · intro env platform skipE sp dr
    unfold mainModel
    rw [topological_sort_error_of_cycle hg hcyc]

/-- Witness for the amended C2 at the spec's example cycle `x ↔ y`. -/
theorem C2_witness :
    WFGraph exXY ∧ (∃ n, Relation.TransGen (hasEdge exXY) n n) ∧
    (∃ rep, topological_sort exXY = Except.error rep ∧
      rep ≠ [] ∧
      (∀ pr ∈ rep, pr.1 ∈ nodesOf exXY ∧ pr.2 = strSort (filteredDeps exXY pr.1)) ∧
      (∀ n, Relation.TransGen (hasEdge exXY) n n → n ∈ rep.map Prod.fst) ∧
      (∀ env platform skipE sp dr,
        mainModel env platform skipE sp dr exXY = (initRunState, 1))) :=
  have hwf : WFGraph exXY := by
    constructor
    · decide
    · decide
  have hxy : hasEdge exXY "x" "y" := by
    show "y" ∈ filteredDeps exXY "x"
    decide
  have hyx : hasEdge exXY "y" "x" := by
    show "x" ∈ filteredDeps exXY "y"
    decide
  have hcyc : ∃ n, Relation.TransGen (hasEdge exXY) n n :=
    ⟨"x", Relation.TransGen.head hxy (Relation.TransGen.single hyx)⟩
  ⟨hwf, hcyc, C2_cycle_fatal_report exXY hwf hcyc⟩

/-! Determinism of the computed order under dict/set iteration order:
association lists that are permutations of each other (the same dict)
produce identical output. -/

theorem lookupDeps_eq_of_mem {g : Graph} (hk : (g.map Prod.fst).Nodup)
    {e : String × List String} (he : e ∈ g) : lookupDeps g e.1 = e.2 := by
  induction g with
  | nil => simp at he
  | cons a t ih =>
    rcases List.mem_cons.1 he with rfl | het
    · unfold lookupDeps
      rw [List.find?_cons_of_pos _ (by simp)]
    · have hane : ¬ (a.1 == e.1) = true := by
        simp only [beq_iff_eq]
        intro hcontra
        have : e.1 ∈ t.map Prod.fst := List.mem_map_of_mem Prod.fst het
        rw [← hcontra] at this
        exact (List.nodup_cons.1 hk).1 this
      have hane2 : (a.1 == e.1) = false := by
        rw [Bool.eq_false_iff]
        exact hane
      unfold lookupDeps
      rw [List.find?_cons]
      simp only [hane2]
      exact ih (List.nodup_cons.1 hk).2 het

theorem lookupDeps_eq_nil_of_not_mem {g : Graph} {p : String}
    (h : p ∉ nodesOf g) : lookupDeps g p = [] := by
  unfold lookupDeps
  rw [List.find?_eq_none.2]
  intro e he
  simp only [beq_iff_eq]
  intro hcontra
  exact h (hcontra ▸ List.mem_map_of_mem Prod.fst he)

theorem lookupDeps_perm_eq {g1 g2 : Graph} (hk : (g1.map Prod.fst).Nodup)
    (hp : g1.Perm g2) : ∀ p, lookupDeps g1 p = lookupDeps g2 p := by
  intro p
  have hk2 : (g2.map Prod.fst).Nodup := ((hp.map Prod.fst).nodup_iff).1 hk
  by_cases hmem : p ∈ nodesOf g1
  · rcases List.mem_map.1 hmem with ⟨e, he, heq⟩
    rw [← heq, lookupDeps_eq_of_mem hk he, lookupDeps_eq_of_mem hk2 (hp.mem_iff.1 he)]
  · have hmem2 : p ∉ nodesOf g2 := by
      intro hcontra
      exact hmem (((hp.map Prod.fst).mem_iff).2 hcontra)
    rw [lookupDeps_eq_nil_of_not_mem hmem, lookupDeps_eq_nil_of_not_mem hmem2]

theorem filteredDeps_perm_eq {g1 g2 : Graph} (hk : (g1.map Prod.fst).Nodup)
    (hp : g1.Perm g2) : ∀ p, filteredDeps g1 p = filteredDeps g2 p := by
  intro p
  unfold filteredDeps
  rw [lookupDeps_perm_eq hk hp p]
  apply List.filter_congr
  intro d _
  by_cases hd : d ∈ nodesOf g1
  · have hd2 : d ∈ nodesOf g2 := ((hp.map Prod.fst).mem_iff).1 hd
    simp [hd, hd2]
  · have hd2 : d ∉ nodesOf g2 := fun h => hd (((hp.map Prod.fst).mem_iff).2 h)
    simp [hd, hd2]

theorem ready_perm {g1 g2 : Graph} (hk : (g1.map Prod.fst).Nodup) (hp : g1.Perm g2)
    (done : List String) : (ready g1 done).Perm (ready g2 done) := by
  have hfd : ∀ p, filteredDeps g1 p = filteredDeps g2 p := filteredDeps_perm_eq hk hp
  unfold ready
  have hpred : (fun n => !done.contains n && (filteredDeps g2 n).all (fun d => done.contains d)) =
      (fun n => !done.contains n && (filteredDeps g1 n).all (fun d => done.contains d)) := by
    funext n
    rw [hfd n]
  rw [hpred]
  exact (hp.map Prod.fst).filter _

theorem greedy_perm_eq {g1 g2 : Graph} (hk : (g1.map Prod.fst).Nodup) (hp : g1.Perm g2) :
    ∀ (fuel : Nat) (done : List String), greedy g1 fuel done = greedy g2 fuel done := by
  intro fuel
  induction fuel with
  | zero => intro done; rfl
  | succ fuel ih =>
    intro done
    have hsort : strSort (ready g1 done) = strSort (ready g2 done) :=
      strSort_eq_of_perm (ready_perm hk hp done)
    rcases hs : strSort (ready g1 done) with _ | ⟨m, rest⟩
    · rw [greedy_succ_nil hs, greedy_succ_nil (hsort ▸ hs)]
    · rw [greedy_succ_cons hs, greedy_succ_cons (hsort ▸ hs), ih]

theorem topological_sort_perm_eq {g1 g2 : Graph} (hg : WFGraph g1) (hp : g1.Perm g2) :
    topological_sort g1 = topological_sort g2 := by
  have hg2 : WFGraph g2 :=
    ⟨((hp.map Prod.fst).nodup_iff).1 hg.1, fun e he => hg.2 e (hp.mem_iff.2 he)⟩
  have hres : topoResult g1 = topoResult g2 := by
    rw [topoResult_eq_greedy hg, topoResult_eq_greedy hg2, hp.length_eq,
      greedy_perm_eq hg.1 hp]
  have hdlen : (nodesOf g1).dedup.length = (nodesOf g2).dedup.length :=
    ((hp.map Prod.fst).dedup).length_eq
  have hrep : cycleReport g1 (topoResult g2) = cycleReport g2 (topoResult g2) := by
    unfold cycleReport
    have hrem : ((nodesOf g1).filter (fun n => !(topoResult g2).contains n)).Perm
        ((nodesOf g2).filter (fun n => !(topoResult g2).contains n)) :=
      (hp.map Prod.fst).filter _
    rw [strSort_eq_of_perm hrem]
    apply List.map_congr_left
    intro p _
    rw [filteredDeps_perm_eq hg.1 hp p]
  unfold topological_sort
  rw [hres]
  by_cases hc : (topoResult g2).length = (nodesOf g2).dedup.length
  · simp only [hdlen, hc, if_true]
  · rw [hdlen] at *
    simp only [hc, if_false, hrep]

/-! The emitted element is always the least member of the current ready set. -/

theorem greedy_get_min {g : Graph} :
    ∀ (fuel : Nat) (done : List String) (i : Nat) (v : String), done.length ≤ i →
      (greedy g fuel done).get? i = some v →
      (strSort (ready g ((greedy g fuel done).take i))).head? = some v := by
  intro fuel
  induction fuel with
  | zero =>
    intro done i v hle hv
    have : (greedy g 0 done).get? i = none := List.get?_eq_none.2 hle
    rw [this] at hv
    exact absurd hv (by simp)
  | succ fuel ih =>
    intro done i v hle hv
    rcases hs : strSort (ready g done) with _ | ⟨m, rest⟩
    · rw [greedy_succ_nil hs] at hv ⊢
      have : (done : List String).get? i = none := List.get?_eq_none.2 hle
      rw [this] at hv
      exact absurd hv (by simp)
    · rw [greedy_succ_cons hs] at hv ⊢
      rcases greedy_prefix (g := g) fuel (done ++ [m]) with ⟨suffix, hsf⟩
      by_cases hi : i = done.length
      · subst hi
        have htake : (greedy g fuel (done ++ [m])).take done.length = done := by
          rw [hsf, List.append_assoc]
          exact List.take_left done ([m] ++ suffix)
        have hget : (greedy g fuel (done ++ [m])).get? done.length = some m := by
          rw [hsf, List.append_assoc]
          rw [List.get?_append_right (le_refl _)]
          simp
        rw [hget] at hv
        have hvm : v = m := by
          injection hv with h2
          exact h2.symm
        rw [htake, hs, hvm]
        rfl
      · have hle2 : (done ++ [m]).length ≤ i := by
          rw [List.length_append]
          simp only [List.length_singleton]
          omega
        exact ih (done ++ [m]) i v hle2 hv

theorem indexOf_lt_iff_mem_take {a : String} :
    ∀ (l : List String) (k : Nat), a ∈ l → (a ∈ l.take k ↔ List.indexOf a l < k) := by
  intro l
  induction l with
  | nil => intro k h; simp at h
  | cons b t ih =>
    intro k h
    cases k with
    | zero => simp
    | succ k =>
      by_cases hba : b = a
      · subst hba
        simp [List.indexOf_cons_self]
      · have hat : a ∈ t := by
          rcases List.mem_cons.1 h with h2 | h2
          · exact absurd h2.symm hba
          · exact h2
        have hidx : List.indexOf a (b :: t) = List.indexOf a t + 1 := by
          rw [List.indexOf_cons]
          have : (b == a) = false := beq_false_of_ne hba
          rw [this]
          rfl
        rw [List.take_succ_cons, hidx]
        constructor
        · intro hmem
          rcases List.mem_cons.1 hmem with h2 | h2
          · exact absurd h2.symm hba
          · have := (ih k hat).1 h2
            omega
        · intro hlt
          exact List.mem_cons_of_mem b ((ih k hat).2 (by omega))

theorem take_mono_mem {l : List String} {i j : Nat} (hij : i ≤ j) :
    ∀ x ∈ l.take i, x ∈ l.take j := by
  intro x hx
  have : l.take i = (l.take j).take i := by
    rw [List.take_take, Nat.min_eq_left hij]
  rw [this] at hx
  exact List.take_subset i (l.take j) hx

theorem topological_sort_min_ready {g : Graph} {l : List String} (hg : WFGraph g)
    (hok : topological_sort g = Except.ok l) :
    ∀ i v, l.get? i = some v → (strSort (ready g (l.take i))).head? = some v := by
  rcases topological_sort_ok_spec hg hok with ⟨hleq, -⟩
  subst hleq
  intro i v hv
  rw [topoResult_eq_greedy hg] at hv ⊢
  exact greedy_get_min g.length [] i v (by simp) hv

theorem ready_pair_order {g : Graph} {l : List String} (hg : WFGraph g)
    (hok : topological_sort g = Except.ok l) :
    ∀ i x y, x ∈ ready g (l.take i) → y ∈ ready g (l.take i) → strLe x y → x ≠ y →
      List.indexOf x l < List.indexOf y l := by
  intro i x y hx hy hxy hne
  rcases topological_sort_ok_spec hg hok with ⟨hleq, hmem⟩
  have hnd : l.Nodup := by rw [hleq]; exact (topoResult_ordered hg).1
  have hxl : x ∈ l := (hmem x).2 (mem_ready.1 hx).1
  have hyl : y ∈ l := (hmem y).2 (mem_ready.1 hy).1
  have hiy_lt : List.indexOf y l < List.indexOf x l ∨
      List.indexOf x l < List.indexOf y l := by
    rcases Nat.lt_trichotomy (List.indexOf y l) (List.indexOf x l) with h | h | h
    · exact Or.inl h
    · exfalso
      apply hne
      have h1 : l.get? (List.indexOf x l) = some x := by
        rw [List.get?_eq_get (List.indexOf_lt_length.2 hxl)]
        simp [List.get_eq_getElem, List.getElem_indexOf]
      have h2 : l.get? (List.indexOf y l) = some y := by
        rw [List.get?_eq_get (List.indexOf_lt_length.2 hyl)]
        simp [List.get_eq_getElem, List.getElem_indexOf]
      rw [h] at h2
      rw [h1] at h2
      injection h2
    · exact Or.inr h
  rcases hiy_lt with hlt | hlt
  · exfalso
    have hiy_ge : i ≤ List.indexOf y l := by
      have hnotin : y ∉ l.take i := (mem_ready.1 hy).2.1
      by_contra hlt2
      push_neg at hlt2
      exact hnotin ((indexOf_lt_iff_mem_take l i hyl).2 hlt2)
    have hx2 : x ∈ ready g (l.take (List.indexOf y l)) := by
      rcases mem_ready.1 hx with ⟨hxn, hxnot, hxdeps⟩
      apply mem_ready.2
      refine ⟨hxn, ?_, ?_⟩
      · intro hmemt
        have := (indexOf_lt_iff_mem_take l _ hxl).1 hmemt
        omega
      · intro d hd
        exact take_mono_mem hiy_ge d (hxdeps d hd)
    have hget : l.get? (List.indexOf y l) = some y := by
      rw [List.get?_eq_get (List.indexOf_lt_length.2 hyl)]
      simp [List.get_eq_getElem, List.getElem_indexOf]
    have hmin : (strSort (ready g (l.take (List.indexOf y l)))).head? = some y :=
      topological_sort_min_ready hg hok _ y hget
    rcases hsy : strSort (ready g (l.take (List.indexOf y l))) with _ | ⟨m0, rest0⟩
    · rw [hsy] at hmin
      exact absurd hmin (by simp)
    · rw [hsy] at hmin
      have hm0 : m0 = y := by
        have : (m0 :: rest0).head? = some m0 := rfl
        rw [this] at hmin
        injection hmin
      have hyx : strLe y x := by
        rw [← hm0]
        exact strSort_head_min hsy x hx2
      exact hne (antisymm hxy hyx)
  · exact hlt

/-- C6: the computed order is deterministic — permuting the association
list (the dict/set iteration order) leaves the output of
`topological_sort` byte-identical — because at every position the emitted
package is the lexicographically smallest member of the current ready set;
consequently packages that are simultaneously ready appear in ascending
lexicographic order. -/
theorem C6_deterministic_lexicographic :
    (∀ g1 g2 : Graph, WFGraph g1 → g1.Perm g2 →
      topological_sort g1 = topological_sort g2) ∧
    (∀ (g : Graph) (l : List String), WFGraph g → topological_sort g = Except.ok l →
      ∀ i v, l.get? i = some v →
        (strSort (ready g (l.take i))).head? = some v) ∧
    (∀ (g : Graph) (l : List String), WFGraph g → topological_sort g = Except.ok l →
      ∀ i x y, x ∈ ready g (l.take i) → y ∈ ready g (l.take i) → strLe x y → x ≠ y →
        List.indexOf x l < List.indexOf y l) :=
  ⟨fun _ _ hg hp => topological_sort_perm_eq hg hp,
   fun _ _ hg hok => topological_sort_min_ready hg hok,
   fun _ _ hg hok => ready_pair_order hg hok⟩

/-- Witness for C6: the example graph under two iteration orders, the
minimum-of-ready characterization at position 1 of `[c, b, a]`, and the
tie `p`, `q` emitted in ascending order. -/
theorem C6_witness :
    WFGraph exA ∧ exA.Perm exA2 ∧
    topological_sort exA = topological_sort exA2 ∧
    topological_sort exA = Except.ok ["c", "b", "a"] ∧
    (["c", "b", "a"] : List String).get? 1 = some "b" ∧
    (strSort (ready exA (["c", "b", "a"].take 1))).head? = some "b" ∧
    WFGraph exTie ∧ topological_sort exTie = Except.ok ["p", "q"] ∧
    "p" ∈ ready exTie (["p", "q"].take 0) ∧ "q" ∈ ready exTie (["p", "q"].take 0) ∧
    List.indexOf "p" ["p", "q"] < List.indexOf "q" ["p", "q"] :=
  have hwfA : WFGraph exA := ⟨by decide, by decide⟩
  have hwfT : WFGraph exTie := ⟨by decide, by decide⟩
  have hperm : exA.Perm exA2 := by decide
  have hokA : topological_sort exA = Except.ok ["c", "b", "a"] := rfl
  have hokT : topological_sort exTie = Except.ok ["p", "q"] := rfl
  have hp : "p" ∈ ready exTie (["p", "q"].take 0) := by decide
  have hq : "q" ∈ ready exTie (["p", "q"].take 0) := by decide
  ⟨hwfA, hperm,
   C6_deterministic_lexicographic.1 exA exA2 hwfA hperm,
   hokA, by decide,
   C6_deterministic_lexicographic.2.1 exA ["c", "b", "a"] hwfA hokA 1 "b" (by decide),
   hwfT, hokT, hp, hq,
   C6_deterministic_lexicographic.2.2 exTie ["p", "q"] hwfT hokT 0 "p" "q" hp hq
     (by decide) (by decide)⟩

/-- C8: parsing the dependency entry `libfoo-dev (>= 1.0)` yields the
logical dependency `libfoo`, identical to parsing `libfoo-dev`, both at the
single-entry level, at the `Build-Depends` value level, and for whole
manifests differing only in that entry. -/
theorem C8_dep_entry_normalization :
    processDep "libfoo-dev (>= 1.0)" = some "libfoo" ∧
    processDep "libfoo-dev" = some "libfoo" ∧
    parse_build_depends "libfoo-dev (>= 1.0)" = ["libfoo"] ∧
    parse_build_depends "libfoo-dev" = ["libfoo"] ∧
    parse_build_depends "bar, libfoo-dev (>= 1.0)" =
      parse_build_depends "bar, libfoo-dev" ∧
    parse_control_file ⟨some "pkg", some "libfoo-dev (>= 1.0)"⟩ =
      parse_control_file ⟨some "pkg", some "libfoo-dev"⟩ :=
  ⟨by decide, by decide, by decide, by decide, by decide, by decide⟩

/-- C9 counterexample: a manifest for `a` depending on the non-system
token `libzzz` (which has no manifest) makes `build_dependency_graph`
return a graph whose edge `a → libzzz` points outside the node set: the
graph builder itself performs no intersection with the nodes. -/
theorem C9_counterexample :
    build_dependency_graph [⟨some "a", some "libzzz"⟩] = [("a", ["libzzz"])] ∧
    "libzzz" ∈ lookupDeps (build_dependency_graph [⟨some "a", some "libzzz"⟩]) "a" ∧
    "libzzz" ∉ nodesOf (build_dependency_graph [⟨some "a", some "libzzz"⟩]) :=
  ⟨by decide, by decide, by decide⟩

/-- C9 as amended: the intersection with the node set happens at the start
of `topological_sort` (mutating the shared dict), so every edge the
scheduler consults — and every dependency it reports in a cycle diagnostic
— is a node; the builder's direct output may still carry unresolvable
tokens. -/
theorem C9_scheduler_edges_are_nodes :
    (∀ (g : Graph) (p d : String), d ∈ filteredDeps g p → d ∈ nodesOf g) ∧
    (∀ (g : Graph) (rep : List (String × List String)),
      topological_sort g = Except.error rep →
      ∀ pr ∈ rep, ∀ d ∈ pr.2, d ∈ nodesOf g) := by
  constructor
  · intro g p d hd
    exact filteredDeps_subset_nodes hd
  · intro g rep herr pr hpr d hd
    unfold topological_sort at herr
    by_cases hc : (topoResult g).length = (nodesOf g).dedup.length
    · rw [if_pos hc] at herr
      exact absurd herr (by simp)
    · rw [if_neg hc] at herr
      have hrep : rep = cycleReport g (topoResult g) := by
        injection herr with h2
        exact h2.symm
      subst hrep
      unfold cycleReport at hpr
      rcases List.mem_map.1 hpr with ⟨p2, hp2, hpeq⟩
      rw [← hpeq] at hd
      exact filteredDeps_subset_nodes (mem_strSort.1 hd)

/-- Witness for the amended C9 at concrete graphs. -/
theorem C9_witness :
    ("b" ∈ filteredDeps exA "a" ∧ "b" ∈ nodesOf exA) ∧
    (topological_sort exXY = Except.error [("x", ["y"]), ("y", ["x"])] ∧
      "y" ∈ nodesOf exXY) :=
  ⟨⟨by decide, C9_scheduler_edges_are_nodes.1 exA "a" "b" (by decide)⟩,
   ⟨rfl, C9_scheduler_edges_are_nodes.2 exXY _ rfl ("x", ["y"]) (by decide) "y" (by decide)⟩⟩

/-! The artifact existence filter. -/

theorem debMatch_iff {b platform f : String} :
    debMatch b platform f = true ↔ DebMatches b platform f := by
  unfold debMatch DebMatches
  rw [Bool.and_eq_true, List.isPrefixOf_iff_prefix, List.isSuffixOf_iff_suffix]
  constructor
  · rintro ⟨hpre, hsuf⟩
    rcases hpre with ⟨t, ht⟩
    rcases hsuf with ⟨s, hs⟩
    refine ⟨s, ?_⟩
    rw [← ht]
    have hdrop : f.toList.drop (b ++ "_").toList.length = t := by
      rw [← ht, List.drop_left]
    rw [hdrop] at hs
    rw [← hs, List.append_assoc]
  · rintro ⟨mid, hmid⟩
    constructor
    · exact ⟨mid ++ ("_" ++ platform ++ ".deb").toList, by rw [hmid, List.append_assoc]⟩
    · have hdrop : f.toList.drop (b ++ "_").toList.length =
          mid ++ ("_" ++ platform ++ ".deb").toList := by
        rw [hmid, List.append_assoc, List.drop_left]
      rw [hdrop]
      exact ⟨mid, rfl⟩

theorem existing_debs_ne_nil_iff {env : Env} {arts : List String} {platform : String} :
    existing_debs env arts platform ≠ [] ↔
      ∃ b ∈ arts, ∃ f ∈ env.files, DebMatches b platform f := by
  unfold existing_debs
  constructor
  · intro hne
    rcases List.exists_mem_of_ne_nil _ hne with ⟨x, hx⟩
    rcases List.mem_flatMap.1 hx with ⟨b, hb, hxb⟩
    rw [List.mem_filter] at hxb
    exact ⟨b, hb, x, hxb.1, debMatch_iff.1 hxb.2⟩
  · rintro ⟨b, hb, f, hf, hm⟩
    intro hnil
    have : f ∈ ([] : List String) := by
      rw [← hnil]
      exact List.mem_flatMap.2 ⟨b, hb, List.mem_filter.2 ⟨hf, debMatch_iff.2 hm⟩⟩
    simp at this

/-! Unfolding lemmas for the pass steps. -/

theorem primaryStep_false (env : Env) (plat dp : String) (sk : Bool) (st : RunState)
    (p : String) :
    primaryStep env plat dp sk (st, false) p =
      if env.rustMarker p && !is_native_platform env dp then
        ({ st with rustPackages := st.rustPackages ++ [p],
                   skipped := st.skipped ++ [p] }, false)
      else if sk && !(existing_debs env (get_binary_package_names env p) plat).isEmpty then
        ({ st with skipped := st.skipped ++ [p] }, false)
      else if env.buildOk p plat then
        ({ st with succeeded := st.succeeded ++ [p],
                   built := st.built ++ [(p, plat)] }, false)
      else ({ st with failed := st.failed ++ [p],
                      built := st.built ++ [(p, plat)] }, true) := rfl

theorem primaryStep_true (env : Env) (plat dp : String) (sk : Bool) (st : RunState)
    (p : String) : primaryStep env plat dp sk (st, true) p = (st, true) := rfl

theorem localStep_false (env : Env) (plat : String) (sk : Bool) (st : RunState)
    (p : String) :
    localStep env plat sk (st, false) p =
      if sk && !(existing_debs env (get_binary_package_names env p) plat).isEmpty then
        ({ st with skipped := st.skipped ++ [p] }, false)
      else if env.buildOk p plat then
        ({ st with succeeded := st.succeeded ++ [p],
                   built := st.built ++ [(p, plat)] }, false)
      else ({ st with failed := st.failed ++ [p],
                      built := st.built ++ [(p, plat)] }, true) := rfl

theorem localStep_true (env : Env) (plat : String) (sk : Bool) (st : RunState)
    (p : String) : localStep env plat sk (st, true) p = (st, true) := rfl

/-- C3 counterexample: source package `p` produces artifacts `p1` and `p2`;
only `p1` has an existing `.deb`, so not every produced artifact is
covered, yet with skip-existing enabled the run skips `p` and builds
nothing — the code's condition is "at least one artifact matches", not
"every artifact matches" as the claim states. -/
theorem C3_counterexample :
    (runBuilds envC3 "arm64" "linux/arm64" true ["p"]).1.skipped = ["p"] ∧
    (runBuilds envC3 "arm64" "linux/arm64" true ["p"]).1.built = [] ∧
    get_binary_package_names envC3 "p" = ["p1", "p2"] ∧
    ¬ (∀ b ∈ get_binary_package_names envC3 "p",
        ∃ f ∈ envC3.files, debMatch b "arm64" f = true) :=
  ⟨rfl, rfl, rfl, by decide⟩

/-- C3 as amended: with skip-existing enabled, a package (not deferred for
cross-compilation) is skipped exactly when at least ONE of its produced
artifacts has an existing output matching `{artifact}_*_{architecture}.deb`
— an existential over artifacts, not the claim's "for every artifact"; the
rebuild flag (skip-existing off) makes the build attempt happen regardless
of existing artifacts. Both the containerized and the local step behave
this way. -/
theorem C3_skip_existing_any_artifact :
    ∀ (env : Env) (platform dockerPlatform : String) (st : RunState) (p : String),
      (env.rustMarker p && !is_native_platform env dockerPlatform) = false →
      ((primaryStep env platform dockerPlatform true (st, false) p =
          ({ st with skipped := st.skipped ++ [p] }, false)) ↔
        ∃ b ∈ get_binary_package_names env p, ∃ f ∈ env.files, DebMatches b platform f) ∧
      ((primaryStep env platform dockerPlatform false (st, false) p).1.built =
        st.built ++ [(p, platform)]) ∧
      ((localStep env platform true (st, false) p =
          ({ st with skipped := st.skipped ++ [p] }, false)) ↔
        ∃ b ∈ get_binary_package_names env p, ∃ f ∈ env.files, DebMatches b platform f) := by
  intro env platform dockerPlatform st p hrust
  have hmain : ∀ res : RunState × Bool,
      (res = if env.buildOk p platform then
          ({ st with succeeded := st.succeeded ++ [p],
                     built := st.built ++ [(p, platform)] }, false)
        else ({ st with failed := st.failed ++ [p],
                        built := st.built ++ [(p, platform)] }, true)) →
      res ≠ ({ st with skipped := st.skipped ++ [p] }, false) := by
    intro res hres heq
    by_cases hok : env.buildOk p platform = true
    · rw [if_pos hok] at hres
      rw [hres] at heq
      have := congrArg (fun r => r.1.succeeded) heq
      simp at this
    · rw [if_neg hok] at hres
      rw [hres] at heq
      have := congrArg Prod.snd heq
      simp at this
  have hskipiff : ∀ sres : RunState × Bool,
      (sres = if !(existing_debs env (get_binary_package_names env p) platform).isEmpty then
          ({ st with skipped := st.skipped ++ [p] }, false)
        else if env.buildOk p platform then
          ({ st with succeeded := st.succeeded ++ [p],
                     built := st.built ++ [(p, platform)] }, false)
        else ({ st with failed := st.failed ++ [p],
                        built := st.built ++ [(p, platform)] }, true)) →
      ((sres = ({ st with skipped := st.skipped ++ [p] }, false)) ↔
        ∃ b ∈ get_binary_package_names env p, ∃ f ∈ env.files, DebMatches b platform f) := by
    intro sres hres
    by_cases hdebs : existing_debs env (get_binary_package_names env p) platform = []
    · rw [if_neg (by simp [List.isEmpty_iff, hdebs])] at hres
      constructor
      · intro heq
        exact absurd heq (hmain sres hres)
      · intro hex
        exact absurd hdebs (existing_debs_ne_nil_iff.2 hex)
    · rw [if_pos (by simp [List.isEmpty_iff, hdebs])] at hres
      constructor
      · intro _
        exact existing_debs_ne_nil_iff.1 hdebs
      · intro _
        exact hres
  refine ⟨?_, ?_, ?_⟩
  · rw [primaryStep_false, if_neg (by simp [hrust])]
    apply hskipiff
    simp
  · rw [primaryStep_false, if_neg (by simp [hrust]),
      if_neg (by simp)]
    by_cases hok : env.buildOk p platform = true
    · rw [if_pos hok]
    · rw [if_neg hok]
  · rw [localStep_false]
    apply hskipiff
    simp

/-- Witness for the amended C3 at the concrete two-artifact environment. -/
theorem C3_witness :
    (envC3.rustMarker "p" && !is_native_platform envC3 "linux/arm64") = false ∧
    (∃ b ∈ get_binary_package_names envC3 "p",
      ∃ f ∈ envC3.files, DebMatches b "arm64" f) ∧
    (primaryStep envC3 "arm64" "linux/arm64" true (initRunState, false) "p" =
      ({ initRunState with skipped := ["p"] }, false)) ∧
    (primaryStep envC3 "arm64" "linux/arm64" false (initRunState, false) "p").1.built =
      [("p", "arm64")] :=
  have hr : (envC3.rustMarker "p" && !is_native_platform envC3 "linux/arm64") = false := by
    decide
  have hex : ∃ b ∈ get_binary_package_names envC3 "p",
      ∃ f ∈ envC3.files, DebMatches b "arm64" f :=
    ⟨"p1", by decide, "p1_1.0_arm64.deb", by decide, "1.0".toList, by decide⟩
  have hth := C3_skip_existing_any_artifact envC3 "arm64" "linux/arm64" initRunState "p" hr
  ⟨hr, hex, hth.1.mpr hex, hth.2.1⟩

/-- C7: the containerized driver prefixes every build command with the
timeout supervisor, and both drivers classify return codes 124/143 as a
timeout distinct from other non-zero exits and from the launch-error path
— but the local driver's command is bare `bash -c` with no supervisor
anywhere in it (the timeout prefix is commented out in the source), so the
local driver never enforces the timeout it documents. -/
theorem C7_local_timeout_not_enforced :
    (∀ (darwin : Bool) (t : Nat) (cid p platform : String) (fs : Bool),
      (build_cmd_docker darwin t cid p platform fs).head? = some (timeout_command darwin)) ∧
    (∀ (p platform : String) (fs : Bool),
      build_cmd_local p platform fs = ["bash", "-c", bash_script_local p platform fs] ∧
      ∀ s ∈ build_cmd_local p platform fs,
        s ≠ timeout_command true ∧ s ≠ timeout_command false) ∧
    classify_returncode 124 = BuildOutcome.timedOut ∧
    classify_returncode 143 = BuildOutcome.timedOut ∧
    (∀ rc : Int, ¬ rc = 0 → ¬ rc = 124 → ¬ rc = 143 →
      classify_returncode rc = BuildOutcome.nonZeroExit rc ∧
      BuildOutcome.nonZeroExit rc ≠ BuildOutcome.timedOut ∧
      BuildOutcome.nonZeroExit rc ≠ BuildOutcome.launchErr) := by
  refine ⟨fun darwin t cid p platform fs => rfl, ?_, rfl, rfl, ?_⟩
  · intro p platform fs
    refine ⟨rfl, ?_⟩
    intro s hs
    have hs2 : s = "bash" ∨ s = "-c" ∨ s = bash_script_local p platform fs := by
      simpa [build_cmd_local] using hs
    have hlong : ∀ d : Bool, bash_script_local p platform fs ≠ timeout_command d := by
      intro d heq
      have hlen := congrArg String.length heq
      simp only [bash_script_local, String.length_append] at hlen
      have h0 : 9 ≤ ("set -euo pipefail && source scripts/build-helpers/build-common.sh && install_build_dependencies " : String).length := by
        decide
      cases d with
      | true =>
        have h8 : (timeout_command true).length = 8 := by decide
        rw [h8] at hlen
        omega
      | false =>
        have h7 : (timeout_command false).length = 7 := by decide
        rw [h7] at hlen
        omega
    rcases hs2 with rfl | rfl | rfl
    · exact ⟨by decide, by decide⟩
    · exact ⟨by decide, by decide⟩
    · exact ⟨hlong true, hlong false⟩
  · intro rc h0 h124 h143
    refine ⟨?_, by simp, by simp⟩
    unfold classify_returncode
    rw [if_neg h0, if_neg (by tauto)]

/-- Witness for C7 at concrete inputs: a Linux containerized command starts
with `timeout`, the local command is bare `bash -c`, and the return-code
classification separates 124 from an ordinary failing exit code 2. -/
theorem C7_witness :
    (build_cmd_docker false 600 "cid" "pkg" "arm64" false).head? = some "timeout" ∧
    build_cmd_local "pkg" "arm64" false =
      ["bash", "-c", bash_script_local "pkg" "arm64" false] ∧
    ("bash" ≠ timeout_command true ∧ "bash" ≠ timeout_command false) ∧
    classify_returncode 124 = BuildOutcome.timedOut ∧
    (classify_returncode 2 = BuildOutcome.nonZeroExit 2 ∧
      BuildOutcome.nonZeroExit 2 ≠ BuildOutcome.timedOut ∧
      BuildOutcome.nonZeroExit 2 ≠ BuildOutcome.launchErr) :=
  ⟨C7_local_timeout_not_enforced.1 false 600 "cid" "pkg" "arm64" false,
   (C7_local_timeout_not_enforced.2.1 "pkg" "arm64" false).1,
   (C7_local_timeout_not_enforced.2.1 "pkg" "arm64" false).2 "bash" (by decide),
   C7_local_timeout_not_enforced.2.2.1,
   C7_local_timeout_not_enforced.2.2.2.2 2 (by decide) (by decide) (by decide)⟩

/-! Plumbing facts about the pass folds. -/

theorem primaryFold_aborted (env : Env) (plat dp : String) (sk : Bool) :
    ∀ (plan : List String) (st : RunState),
      plan.foldl (primaryStep env plat dp sk) (st, true) = (st, true) := by
  intro plan
  induction plan with
  | nil => intro st; rfl
  | cons p t ih =>
    intro st
    rw [List.foldl_cons, primaryStep_true]
    exact ih st

theorem localFold_aborted (env : Env) (plat : String) (sk : Bool) :
    ∀ (plan : List String) (st : RunState),
      plan.foldl (localStep env plat sk) (st, true) = (st, true) := by
  intro plan
  induction plan with
  | nil => intro st; rfl
  | cons p t ih =>
    intro st
    rw [List.foldl_cons, localStep_true]
    exact ih st

theorem primaryStep_skipped_cases (env : Env) (plat dp : String) (sk : Bool)
    (s : RunState × Bool) (p : String) :
    (primaryStep env plat dp sk s p).1.skipped = s.1.skipped ∨
    (primaryStep env plat dp sk s p).1.skipped = s.1.skipped ++ [p] := by
  rcases s with ⟨st, ab⟩
  cases ab
  · rw [primaryStep_false]
    split_ifs <;> simp
  · rw [primaryStep_true]
    left; rfl

theorem primaryFold_skipped_mono (env : Env) (plat dp : String) (sk : Bool) :
    ∀ (plan : List String) (s : RunState × Bool) (x : String),
      x ∈ s.1.skipped → x ∈ (plan.foldl (primaryStep env plat dp sk) s).1.skipped := by
  intro plan
  induction plan with
  | nil => intro s x hx; exact hx
  | cons p t ih =>
    intro s x hx
    rw [List.foldl_cons]
    apply ih
    rcases primaryStep_skipped_cases env plat dp sk s p with h | h
    · rw [h]; exact hx
    · rw [h]; exact List.mem_append_left _ hx

theorem primaryStep_no_abort (env : Env) (plat dp : String) (sk : Bool) (st : RunState)
    (p : String) (hok : env.buildOk p plat = true) :
    (primaryStep env plat dp sk (st, false) p).2 = false := by
  rw [primaryStep_false]
  split_ifs <;> simp_all

theorem primaryStep_failed_of_ok (env : Env) (plat dp : String) (sk : Bool) (st : RunState)
    (p : String) (hok : env.buildOk p plat = true) :
    (primaryStep env plat dp sk (st, false) p).1.failed = st.failed := by
  rw [primaryStep_false]
  split_ifs <;> simp_all

theorem primaryFold_no_fail (env : Env) (plat dp : String) (sk : Bool)
    (hall : ∀ q, env.buildOk q plat = true) :
    ∀ (plan : List String) (st : RunState),
      (plan.foldl (primaryStep env plat dp sk) (st, false)).2 = false ∧
      (plan.foldl (primaryStep env plat dp sk) (st, false)).1.failed = st.failed := by
  intro plan
  induction plan with
  | nil => intro st; exact ⟨rfl, rfl⟩
  | cons p t ih =>
    intro st
    rw [List.foldl_cons]
    have hab : (primaryStep env plat dp sk (st, false) p).2 = false :=
      primaryStep_no_abort env plat dp sk st p (hall p)
    have hfix : primaryStep env plat dp sk (st, false) p =
        ((primaryStep env plat dp sk (st, false) p).1, false) := by
      rcases hps : primaryStep env plat dp sk (st, false) p with ⟨st2, ab⟩
      rw [hps] at hab
      simp at hab
      rw [hab]
    rw [hfix]
    rcases ih (primaryStep env plat dp sk (st, false) p).1 with ⟨h1, h2⟩
    refine ⟨h1, ?_⟩
    rw [h2, primaryStep_failed_of_ok env plat dp sk st p (hall p)]

theorem primaryFold_skipped_mem (env : Env) (plat dp : String) (sk : Bool)
    (hall : ∀ q, env.buildOk q plat = true) :
    ∀ (plan : List String) (st : RunState) (p : String), p ∈ plan →
      (env.rustMarker p && !is_native_platform env dp) = true →
      p ∈ (plan.foldl (primaryStep env plat dp sk) (st, false)).1.skipped := by
  intro plan
  induction plan with
  | nil => intro st p hp; simp at hp
  | cons a t ih =>
    intro st p hp hrust
    rw [List.foldl_cons]
    have hfix : primaryStep env plat dp sk (st, false) a =
        ((primaryStep env plat dp sk (st, false) a).1, false) := by
      have hab := primaryStep_no_abort env plat dp sk st a (hall a)
      rcases hps : primaryStep env plat dp sk (st, false) a with ⟨st2, ab⟩
      rw [hps] at hab
      simp at hab
      rw [hab]
    rcases List.mem_cons.1 hp with rfl | hpt
    · have hskip : p ∈ (primaryStep env plat dp sk (st, false) p).1.skipped := by
        rw [primaryStep_false, if_pos hrust]
        simp
      rw [hfix]
      exact primaryFold_skipped_mono env plat dp sk t _ p hskip
    · rw [hfix]
      exact ih _ p hpt hrust

theorem primaryStep_built_cases (env : Env) (plat dp : String) (sk : Bool)
    (s : RunState × Bool) (p : String) :
    (primaryStep env plat dp sk s p).1.built = s.1.built ∨
    ((primaryStep env plat dp sk s p).1.built = s.1.built ++ [(p, plat)] ∧
      (env.rustMarker p && !is_native_platform env dp) = false) := by
  rcases s with ⟨st, ab⟩
  cases ab
  · rw [primaryStep_false]
    split_ifs with h1 h2 h3
    · left; rfl
    · left; rfl
    · right
      exact ⟨rfl, by simpa using h1⟩
    · right
      exact ⟨rfl, by simpa using h1⟩
  · rw [primaryStep_true]
    left; rfl

theorem primaryFold_built (env : Env) (plat dp : String) (sk : Bool) :
    ∀ (plan : List String) (s : RunState × Bool) (q a : String),
      (q, a) ∈ (plan.foldl (primaryStep env plat dp sk) s).1.built →
      (q, a) ∈ s.1.built ∨
        (q ∈ plan ∧ a = plat ∧ (env.rustMarker q && !is_native_platform env dp) = false) := by
  intro plan
  induction plan with
  | nil => intro s q a hq; left; exact hq
  | cons p t ih =>
    intro s q a hq
    rw [List.foldl_cons] at hq
    rcases ih _ q a hq with hin | ⟨hqt, ha, hr⟩
    · rcases primaryStep_built_cases env plat dp sk s p with h | ⟨h, hr⟩
      · rw [h] at hin
        left; exact hin
      · rw [h] at hin
        rcases List.mem_append.1 hin with h2 | h2
        · left; exact h2
        · rw [List.mem_singleton] at h2
          rcases Prod.mk.injEq .. ▸ h2 with ⟨hqp, hap⟩
          right
          exact ⟨by rw [hqp]; exact List.mem_cons_self p t, hap, by rw [hqp]; exact hr⟩
    · right
      exact ⟨List.mem_cons_of_mem p hqt, ha, hr⟩

theorem secondaryPackageStep_built_false (env : Env) (cp : String) (st : RunState)
    (p : String) :
    (secondaryPackageStep env cp false st p).built = st.built ++ [(p, cp)] := by
  unfold secondaryPackageStep
  rw [if_neg (by simp)]
  by_cases hok : env.buildOk p cp = true
  · rw [if_pos hok]
  · rw [if_neg hok]

theorem secondaryPackageStep_built_cases (env : Env) (cp : String) (sk : Bool)
    (st : RunState) (p : String) :
    (secondaryPackageStep env cp sk st p).built = st.built ∨
    (secondaryPackageStep env cp sk st p).built = st.built ++ [(p, cp)] := by
  unfold secondaryPackageStep
  split_ifs <;> simp

theorem secondaryPackageFold_false (env : Env) (cp : String) :
    ∀ (rust : List String) (st : RunState),
      (rust.foldl (secondaryPackageStep env cp false) st).built =
        st.built ++ rust.map (fun q => (q, cp)) := by
  intro rust
  induction rust with
  | nil => intro st; simp
  | cons p t ih =>
    intro st
    rw [List.foldl_cons, ih, secondaryPackageStep_built_false]
    simp

theorem secondaryPackageFold_built (env : Env) (cp : String) (sk : Bool) :
    ∀ (rust : List String) (st : RunState) (q a : String),
      (q, a) ∈ (rust.foldl (secondaryPackageStep env cp sk) st).built →
      (q, a) ∈ st.built ∨ q ∈ rust := by
  intro rust
  induction rust with
  | nil => intro st q a hq; left; exact hq
  | cons p t ih =>
    intro st q a hq
    rw [List.foldl_cons] at hq
    rcases ih _ q a hq with hin | hqt
    · rcases secondaryPackageStep_built_cases env cp sk st p with h | h
      · rw [h] at hin; left; exact hin
      · rw [h] at hin
        rcases List.mem_append.1 hin with h2 | h2
        · left; exact h2
        · rw [List.mem_singleton] at h2
          right
          rcases Prod.mk.injEq .. ▸ h2 with ⟨hqp, -⟩
          rw [hqp]
          exact List.mem_cons_self p t
    · right
      exact List.mem_cons_of_mem p hqt

theorem secondaryTargetStep_built_false (env : Env) (dp : String) (rust : List String)
    (st : RunState) (t : String × String) (hstart : env.startOk dp = true) :
    (secondaryTargetStep env dp false rust st t).built =
      st.built ++ rust.map (fun q => (q, t.1)) := by
  unfold secondaryTargetStep
  rw [if_pos hstart, secondaryPackageFold_false]

theorem secondaryTargetFold_built (env : Env) (dp : String) (sk : Bool)
    (rust : List String) :
    ∀ (targets : List (String × String)) (st : RunState) (q a : String),
      (q, a) ∈ (targets.foldl (secondaryTargetStep env dp sk rust) st).built →
      (q, a) ∈ st.built ∨ q ∈ rust := by
  intro targets
  induction targets with
  | nil => intro st q a hq; left; exact hq
  | cons t ts ih =>
    intro st q a hq
    rw [List.foldl_cons] at hq
    rcases ih _ q a hq with hin | hqt
    · unfold secondaryTargetStep at hin
      by_cases hstart : env.startOk dp = true
      · rw [if_pos hstart] at hin
        rcases secondaryPackageFold_built env t.1 sk rust _ q a hin with h2 | h2
        · left; exact h2
        · right; exact h2
      · rw [if_neg hstart] at hin
        left; exact hin
    · right; exact hqt

theorem secondaryPass_not_native (env : Env) (plat dp : String) (sk : Bool)
    (plan : List String) (st : RunState) (hnat : is_native_platform env dp = false) :
    secondaryPass env plat dp sk plan st = st := by
  unfold secondaryPass
  rw [if_neg (by simp [hnat])]

theorem secondaryPass_built_src (env : Env) (plat dp : String) (sk : Bool)
    (plan : List String) (st : RunState) (q a : String)
    (hq : (q, a) ∈ (secondaryPass env plat dp sk plan st).built) :
    (q, a) ∈ st.built ∨ q ∈ plan := by
  unfold secondaryPass at hq
  by_cases hnat : is_native_platform env dp = true
  · rw [if_pos hnat] at hq
    by_cases hne : plan.filter env.rustMarker ≠ []
    · rw [if_pos hne] at hq
      rcases secondaryTargetFold_built env dp sk (plan.filter env.rustMarker) _ st q a hq
        with h | h
      · left; exact h
      · right; exact List.mem_of_mem_filter h
    · rw [if_neg hne] at hq
      left; exact hq
  · rw [if_neg hnat] at hq
    left; exact hq

theorem secondaryPass_built_single (env : Env) (plat dp : String) (plan : List String)
    (st : RunState) (cp cdp : String) (hnat : is_native_platform env dp = true)
    (hstart : env.startOk dp = true) (htargets : crossTargets plat = [(cp, cdp)])
    (hne : plan.filter env.rustMarker ≠ []) :
    (secondaryPass env plat dp false plan st).built =
      st.built ++ (plan.filter env.rustMarker).map (fun q => (q, cp)) := by
  unfold secondaryPass
  rw [if_pos hnat, if_pos hne, htargets, List.foldl_cons, List.foldl_nil,
    secondaryTargetStep_built_false env dp _ st (cp, cdp) hstart]

theorem crossTargets_ne {platform cp cdp : String}
    (h : crossTargets platform = [(cp, cdp)]) : cp ≠ platform := by
  unfold crossTargets at h
  by_cases h1 : platform = "arm64"
  · rw [if_pos h1] at h
    have : cp = "amd64" := by
      injection h with h2
      injection h2 with h3
      exact h3.symm
    rw [this, h1]
    decide
  · rw [if_neg h1] at h
    by_cases h2 : platform = "amd64"
    · rw [if_pos h2] at h
      have : cp = "arm64" := by
        injection h with h3
        injection h3 with h4
        exact h4.symm
      rw [this, h2]
      decide
    · rw [if_neg h2] at h
      exact absurd h (by simp)

theorem runBuilds_built_mem_plan (env : Env) (plat dp : String) (sk : Bool)
    (plan : List String) (q a : String)
    (hq : (q, a) ∈ (runBuilds env plat dp sk plan).1.built) : q ∈ plan := by
  unfold runBuilds at hq
  by_cases hstart : env.startOk dp = true
  · rw [if_pos hstart] at hq
    rcases secondaryPass_built_src env plat dp sk plan _ q a hq with h | h
    · rcases primaryFold_built env plat dp sk plan _ q a h with h2 | ⟨h2, -, -⟩
      · simp [initRunState] at h2
      · exact h2
    · exact h
  · rw [if_neg hstart] at hq
    simp [initRunState] at hq

theorem mainModel_ok (env : Env) (platform : String) (skipE : Bool) (sp : String)
    (dr : Bool) (g : Graph) (buildOrder : List String)
    (hok : topological_sort g = Except.ok buildOrder) :
    mainModel env platform skipE (some sp) dr g =
      (if buildOrder.contains sp then
        if dr then (initRunState, 0)
        else runBuilds env platform ("linux/" ++ platform) skipE [sp]
      else (initRunState, 1)) := by
  unfold mainModel
  rw [hok]

theorem runBuilds_start (env : Env) (plat dp : String) (sk : Bool) (plan : List String)
    (hstart : env.startOk dp = true) :
    runBuilds env plat dp sk plan =
      (secondaryPass env plat dp sk plan
          (plan.foldl (primaryStep env plat dp sk)
            ({ initRunState with started := [dp] }, false)).1,
        if (secondaryPass env plat dp sk plan
            (plan.foldl (primaryStep env plat dp sk)
              ({ initRunState with started := [dp] }, false)).1).failed ≠ [] then 1 else 0) := by
  unfold runBuilds
  rw [if_pos hstart]

/-- C10: with a single named package requested, an unknown name exits with
status 1 before any container is started or any build attempted, and a
known name makes the execution plan exactly the one-element sequence with
that package — so nothing else (in particular no dependency) is ever
passed to `build_package` in that run. -/
theorem C10_single_package :
    ∀ (env : Env) (platform : String) (skipE : Bool) (g : Graph)
      (buildOrder : List String) (sp : String),
      topological_sort g = Except.ok buildOrder →
      (sp ∉ buildOrder →
        mainModel env platform skipE (some sp) false g = (initRunState, 1)) ∧
      (sp ∈ buildOrder →
        mainModel env platform skipE (some sp) false g =
          runBuilds env platform ("linux/" ++ platform) skipE [sp] ∧
        ∀ q arch, (q, arch) ∈ (mainModel env platform skipE (some sp) false g).1.built →
          q = sp) := by
  intro env platform skipE g buildOrder sp hok
  rw [mainModel_ok env platform skipE sp false g buildOrder hok]
  constructor
  · intro hnot
    rw [if_neg (by simpa using hnot)]
  · intro hmem
    rw [if_pos (by simpa using hmem)]
    refine ⟨rfl, ?_⟩
    intro q arch hq
    have hq2 : (q, arch) ∈ (runBuilds env platform ("linux/" ++ platform) skipE [sp]).1.built :=
      hq
    have := runBuilds_built_mem_plan env platform ("linux/" ++ platform) skipE [sp] q arch hq2
    simpa using this

/-- Witness for C10 on the example graph: the unknown name `zzz` exits 1
with nothing started, and requesting `b` builds only `b`. -/
theorem C10_witness :
    topological_sort exA = Except.ok ["c", "b", "a"] ∧
    "zzz" ∉ (["c", "b", "a"] : List String) ∧
    mainModel envC4 "arm64" true (some "zzz") false exA = (initRunState, 1) ∧
    "b" ∈ (["c", "b", "a"] : List String) ∧
    mainModel envC4 "arm64" true (some "b") false exA =
      runBuilds envC4 "arm64" ("linux/" ++ "arm64") true ["b"] ∧
    (∀ q arch, (q, arch) ∈ (mainModel envC4 "arm64" true (some "b") false exA).1.built →
      q = "b") :=
  have hok : topological_sort exA = Except.ok ["c", "b", "a"] := rfl
  have h1 := (C10_single_package envC4 "arm64" true exA ["c", "b", "a"] "zzz" hok).1
    (by decide)
  have h2 := (C10_single_package envC4 "arm64" true exA ["c", "b", "a"] "b" hok).2
    (by decide)
  ⟨hok, by decide, h1, by decide, h2.1, h2.2⟩

/-- C4 counterexample: the host is amd64 (by definition its own native
architecture) and the requested target is the non-native arm64; the
Rust-marked package `r` is deferred and reported skipped, but no secondary
pass runs in this invocation and `r` is never built for any architecture,
with the run exiting 0 — refuting "when the current host architecture is
the native architecture, the package is subsequently built exactly once
per non-native target architecture in the secondary pass". -/
theorem C4_counterexample :
    get_native_docker_platform envC4.machine = "linux/amd64" ∧
    is_native_platform envC4 "linux/arm64" = false ∧
    envC4.rustMarker "r" = true ∧
    (runBuilds envC4 "arm64" "linux/arm64" true ["r"]).1.skipped = ["r"] ∧
    (runBuilds envC4 "arm64" "linux/arm64" true ["r"]).1.rustPackages = ["r"] ∧
    (runBuilds envC4 "arm64" "linux/arm64" true ["r"]).1.built = [] ∧
    (runBuilds envC4 "arm64" "linux/arm64" true ["r"]).1.failed = [] ∧
    (runBuilds envC4 "arm64" "linux/arm64" true ["r"]).1.started = ["linux/arm64"] ∧
    (runBuilds envC4 "arm64" "linux/arm64" true ["r"]).2 = 0 :=
  ⟨rfl, rfl, rfl, rfl, rfl, rfl, rfl, rfl, rfl⟩

/-- C4 as amended: when the requested target is not the host-native
platform, every cross-compile-marked package is deferred — nothing
Rust-marked is ever passed to `build_package`, and (when builds succeed)
the package ends up reported skipped, never failed; the secondary pass
runs only in an invocation whose requested target IS the host-native
platform, and there it builds each Rust-marked package of the plan exactly
once per (the single) non-native target architecture. -/
theorem C4_cross_compile_two_pass :
    (∀ (env : Env) (platform dockerPlatform : String) (skipE : Bool)
       (plan : List String) (p : String),
      is_native_platform env dockerPlatform = false →
      env.rustMarker p = true →
      (∀ q a, (q, a) ∈ (runBuilds env platform dockerPlatform skipE plan).1.built →
        env.rustMarker q = false) ∧
      ((∀ q, env.buildOk q platform = true) → env.startOk dockerPlatform = true →
        p ∈ plan →
        p ∈ (runBuilds env platform dockerPlatform skipE plan).1.skipped ∧
        p ∉ (runBuilds env platform dockerPlatform skipE plan).1.failed)) ∧
    (∀ (env : Env) (platform dockerPlatform : String) (plan : List String)
       (p cp cdp : String),
      is_native_platform env dockerPlatform = true →
      env.startOk dockerPlatform = true →
      crossTargets platform = [(cp, cdp)] →
      plan.Nodup → env.rustMarker p = true → p ∈ plan →
      List.count (p, cp) (runBuilds env platform dockerPlatform false plan).1.built = 1) := by
  constructor
  · intro env platform dockerPlatform skipE plan p hnat hrust
    constructor
    · intro q a hq
      unfold runBuilds at hq
      by_cases hstart : env.startOk dockerPlatform = true
      · rw [if_pos hstart] at hq
        have h2 := secondaryPass_not_native env platform dockerPlatform skipE plan
          (plan.foldl (primaryStep env platform dockerPlatform skipE)
            ({ initRunState with started := [dockerPlatform] }, false)).1 hnat
        have hq2 : (q, a) ∈ (plan.foldl (primaryStep env platform dockerPlatform skipE)
            ({ initRunState with started := [dockerPlatform] }, false)).1.built := by
          rw [← h2]
          exact hq
        rcases primaryFold_built env platform dockerPlatform skipE plan _ q a hq2
          with h3 | ⟨-, -, h3⟩
        · simp [initRunState] at h3
        · simpa [hnat] using h3
      · rw [if_neg hstart] at hq
        simp [initRunState] at hq
    · intro hall hstart hp
      rw [runBuilds_start env platform dockerPlatform skipE plan hstart]
      rw [secondaryPass_not_native env platform dockerPlatform skipE plan _ hnat]
      constructor
      · exact primaryFold_skipped_mem env platform dockerPlatform skipE hall plan _ p hp
          (by simp [hrust, hnat])
      · have hfail := (primaryFold_no_fail env platform dockerPlatform skipE hall plan
          { initRunState with started := [dockerPlatform] }).2
        intro hmem
        rw [hfail] at hmem
        simp [initRunState] at hmem
  · intro env platform dockerPlatform plan p cp cdp hnat hstart htargets hnd hrust hp
    rw [runBuilds_start env platform dockerPlatform false plan hstart]
    have hne : plan.filter env.rustMarker ≠ [] := by
      apply List.ne_nil_of_mem (a := p)
      rw [List.mem_filter]
      exact ⟨hp, hrust⟩
    have hsec := secondaryPass_built_single env platform dockerPlatform plan
      (plan.foldl (primaryStep env platform dockerPlatform false)
        ({ initRunState with started := [dockerPlatform] }, false)).1
      cp cdp hnat hstart htargets hne
    show List.count (p, cp) (secondaryPass env platform dockerPlatform false plan _).built = 1
    rw [hsec, List.count_append]
    have hmap : List.count (p, cp)
        ((plan.filter env.rustMarker).map (fun q => (q, cp))) = 1 := by
      have haux : ∀ (l : List String), l.Nodup → p ∈ l →
          List.count (p, cp) (l.map (fun q => (q, cp))) = 1 := by
        intro l
        induction l with
        | nil => intro _ hp2; simp at hp2
        | cons a t ih =>
          intro hnd2 hp2
          rw [List.map_cons, List.count_cons]
          by_cases hap : a = p
          · subst hap
            have hnt : a ∉ t := (List.nodup_cons.1 hnd2).1
            have hzero : List.count (a, cp) (t.map (fun q => (q, cp))) = 0 := by
              apply List.count_eq_zero_of_not_mem
              intro hmem
              rcases List.mem_map.1 hmem with ⟨q, hq, hqe⟩
              have hqa : q = a := by
                have := congrArg Prod.fst hqe
                simpa using this
              exact hnt (hqa ▸ hq)
            rw [hzero]
            simp
          · have hpt : p ∈ t := by
              rcases List.mem_cons.1 hp2 with h | h
              · exact absurd h.symm hap
              · exact h
            rw [ih (List.nodup_cons.1 hnd2).2 hpt]
            simp [hap]
      exact haux (plan.filter env.rustMarker) (hnd.filter _)
        (List.mem_filter.2 ⟨hp, hrust⟩)
    have hzero : List.count (p, cp)
        (plan.foldl (primaryStep env platform dockerPlatform false)
          ({ initRunState with started := [dockerPlatform] }, false)).1.built = 0 := by
      apply List.count_eq_zero_of_not_mem
      intro hmem
      rcases primaryFold_built env platform dockerPlatform false plan _ p cp hmem
        with h | ⟨-, hcp, -⟩
      · simp [initRunState] at h
      · exact crossTargets_ne htargets hcp
    rw [hzero, hmap]

/-- Witness for the amended C4: the non-native invocation defers `r`
without building it, and the native invocation builds `r` exactly once for
the cross architecture. -/
theorem C4_witness :
    is_native_platform envC4 "linux/arm64" = false ∧
    envC4.rustMarker "r" = true ∧
    (∀ q a, (q, a) ∈ (runBuilds envC4 "arm64" "linux/arm64" true ["r"]).1.built →
      envC4.rustMarker q = false) ∧
    ("r" ∈ (runBuilds envC4 "arm64" "linux/arm64" true ["r"]).1.skipped ∧
      "r" ∉ (runBuilds envC4 "arm64" "linux/arm64" true ["r"]).1.failed) ∧
    is_native_platform envC5 "linux/amd64" = true ∧
    crossTargets "amd64" = [("arm64", "linux/arm64")] ∧
    List.count ("r", "arm64")
      (runBuilds envC5 "amd64" "linux/amd64" false ["f", "r"]).1.built = 1 :=
  have hnat4 : is_native_platform envC4 "linux/arm64" = false := rfl
  have hrust4 : envC4.rustMarker "r" = true := rfl
  have h1 := (C4_cross_compile_two_pass.1 envC4 "arm64" "linux/arm64" true ["r"] "r"
    hnat4 hrust4)
  have h2 := C4_cross_compile_two_pass.2 envC5 "amd64" "linux/amd64" ["f", "r"]
    "r" "arm64" "linux/arm64" rfl rfl rfl (by decide) rfl (by decide)
  ⟨hnat4, hrust4, h1.1, h1.2 (fun q => rfl) rfl (by decide), rfl, rfl, h2⟩

/-- C5 counterexample: a native-platform run where the first package `f`
fails: the primary pass aborts (the Rust package `r` is not built for the
requested amd64), yet the secondary cross-compile pass still runs — a
second container is started and `r` is built for arm64 — refuting "the
secondary cross-compile pass is never reached". -/
theorem C5_counterexample :
    is_native_platform envC5 "linux/amd64" = true ∧
    envC5.buildOk "f" "amd64" = false ∧
    (runBuilds envC5 "amd64" "linux/amd64" false ["f", "r"]).1.failed = ["f"] ∧
    (runBuilds envC5 "amd64" "linux/amd64" false ["f", "r"]).1.built =
      [("f", "amd64"), ("r", "arm64")] ∧
    (runBuilds envC5 "amd64" "linux/amd64" false ["f", "r"]).1.started =
      ["linux/amd64", "linux/amd64"] ∧
    (runBuilds envC5 "amd64" "linux/amd64" false ["f", "r"]).2 = 1 :=
  ⟨rfl, rfl, rfl, rfl, rfl, rfl⟩

/-- C5 as amended: fail-fast holds within the primary pass of both drivers
— once the abort flag is set by a failed build, every later package of
that pass leaves the state untouched, and the flag is set exactly when a
package was actually attempted (neither deferred nor skipped) and its
build failed — but a primary failure does not suppress the secondary
cross-compile pass: whenever the requested platform is host-native it
still runs, from whatever state the primary pass left, and builds the
Rust-marked packages. -/
theorem C5_fail_fast_primary_only :
    (∀ (env : Env) (plat dp : String) (sk : Bool) (plan : List String) (st : RunState),
      plan.foldl (primaryStep env plat dp sk) (st, true) = (st, true)) ∧
    (∀ (env : Env) (plat : String) (sk : Bool) (plan : List String) (st : RunState),
      plan.foldl (localStep env plat sk) (st, true) = (st, true)) ∧
    (∀ (env : Env) (plat dp : String) (sk : Bool) (st : RunState) (p : String),
      (primaryStep env plat dp sk (st, false) p).2 = true ↔
        ((env.rustMarker p && !is_native_platform env dp) = false ∧
         (sk && !(existing_debs env (get_binary_package_names env p) plat).isEmpty) = false ∧
         env.buildOk p plat = false)) ∧
    (∀ (env : Env) (platform dockerPlatform : String) (plan : List String)
       (st : RunState) (p cp cdp : String),
      is_native_platform env dockerPlatform = true →
      env.startOk dockerPlatform = true →
      crossTargets platform = [(cp, cdp)] →
      env.rustMarker p = true → p ∈ plan →
      (p, cp) ∈ (secondaryPass env platform dockerPlatform false plan st).built) := by
  refine ⟨fun env plat dp sk plan st => primaryFold_aborted env plat dp sk plan st,
    fun env plat sk plan st => localFold_aborted env plat sk plan st, ?_, ?_⟩
  · intro env plat dp sk st p
    rw [primaryStep_false]
    split_ifs with h1 h2 h3
    · simp [h1]
    · simp only [Bool.not_eq_true] at h1
      simp [h1, h2]
    · simp only [Bool.not_eq_true] at h1 h2
      simp [h1, h2, h3]
    · simp only [Bool.not_eq_true] at h1 h2 h3
      simp [h1, h2, h3]
  · intro env platform dockerPlatform plan st p cp cdp hnat hstart htargets hrust hp
    have hne : plan.filter env.rustMarker ≠ [] := by
      apply List.ne_nil_of_mem (a := p)
      rw [List.mem_filter]
      exact ⟨hp, hrust⟩
    rw [secondaryPass_built_single env platform dockerPlatform plan st cp cdp
      hnat hstart htargets hne]
    apply List.mem_append_right
    exact List.mem_map_of_mem _ (List.mem_filter.2 ⟨hp, hrust⟩)

/-- Witness for the amended C5 at the concrete failing run. -/
theorem C5_witness :
    (["x", "y"].foldl (primaryStep envC5 "amd64" "linux/amd64" false)
      (initRunState, true) = (initRunState, true)) ∧
    (["x", "y"].foldl (localStep envC5 "amd64" false)
      (initRunState, true) = (initRunState, true)) ∧
    (primaryStep envC5 "amd64" "linux/amd64" false (initRunState, false) "f").2 = true ∧
    ((envC5.rustMarker "f" && !is_native_platform envC5 "linux/amd64") = false ∧
      (false && !(existing_debs envC5 (get_binary_package_names envC5 "f")
        "amd64").isEmpty) = false ∧
      envC5.buildOk "f" "amd64" = false) ∧
    ("r", "arm64") ∈ (secondaryPass envC5 "amd64" "linux/amd64" false ["f", "r"]
      { initRunState with failed := ["f"] }).built :=
  have hiff := C5_fail_fast_primary_only.2.2.1 envC5 "amd64" "linux/amd64" false
    initRunState "f"
  have hconds : (envC5.rustMarker "f" && !is_native_platform envC5 "linux/amd64") = false ∧
      (false && !(existing_debs envC5 (get_binary_package_names envC5 "f")
        "amd64").isEmpty) = false ∧
      envC5.buildOk "f" "amd64" = false := ⟨rfl, rfl, rfl⟩
  ⟨C5_fail_fast_primary_only.1 envC5 "amd64" "linux/amd64" false ["x", "y"] initRunState,
   C5_fail_fast_primary_only.2.1 envC5 "amd64" false ["x", "y"] initRunState,
   hiff.mpr hconds, hconds,
   C5_fail_fast_primary_only.2.2.2 envC5 "amd64" "linux/amd64" ["f", "r"]
     { initRunState with failed := ["f"] } "r" "arm64" "linux/arm64"
     rfl rfl rfl rfl (by decide)⟩

end PkgWorkflows
